import Mathlib

/-!
# Verification of the gotgz archive engine

A shallow embedding of the path-safety, detection, matching, metadata and
locator logic of the gotgz repository, together with proofs of the behavioural
claims about it.  Go strings are modelled as `List Char`; Go byte slices as
`List Nat` (each entry below 256); fallible Go functions return `Option` or
`Except`.
-/

namespace Gotgz

set_option maxRecDepth 2000


/-- Go strings, modelled as lists of characters. -/
abbrev GoStr := List Char

/-- `strings.HasPrefix s pre`. -/
def hasPref (s pre : GoStr) : Bool := pre.isPrefixOf s

/-- `strings.TrimPrefix s pre`: drop `pre` from the front of `s` when present. -/
def trimPref (s pre : GoStr) : GoStr :=
  if pre.isPrefixOf s then s.drop pre.length else s

/-- `strings.Split s "/"`: split on the path separator. -/
def splitSlash (s : GoStr) : List GoStr :=
  s.foldr (fun c r => if c = '/' then [] :: r else (c :: r.headD []) :: r.tail) [[]]

/-- `strings.Join parts "/"`. -/
def joinSlash (l : List GoStr) : GoStr := List.intercalate ['/'] l

/-- The `..` path element. -/
def dd : GoStr := ['.', '.']

/-!
## `path.Clean` / `filepath.Clean` (Unix)

Go's lexical path cleaning: collapse separators, drop `.` elements, resolve
each `..` against the preceding non-`..` element, and drop `..` at the root.
The element processing is a stack fold; `cleanStep` is one step of it (the
accumulator holds the output elements in reverse order).
-/

/-- One step of Go path cleaning over the element stack. -/
def cleanStep (rooted : Bool) (acc : List GoStr) (c : GoStr) : List GoStr :=
  if c = [] ∨ c = ['.'] then acc
  else if c = dd then
    match acc with
    | [] => if rooted then [] else [dd]
    | a :: rest => if a = dd then dd :: a :: rest else rest
  else c :: acc

/-- The cleaned element list of a path split on separators. -/
def cleanSegs (rooted : Bool) (cs : List GoStr) : List GoStr :=
  (cs.foldl (cleanStep rooted) []).reverse

/-- Render a cleaned element list back to a path string. -/
def renderPath (rooted : Bool) (segs : List GoStr) : GoStr :=
  let out := joinSlash segs
  if rooted then '/' :: out else if out = [] then ['.'] else out

/-- Model of Go `path.Clean` (and `filepath.Clean` on Unix). -/
def clean (p : GoStr) : GoStr :=
  let rooted := hasPref p ['/']
  renderPath rooted (cleanSegs rooted (splitSlash p))

/-- Well-formedness of a cleaned element list: elements are nonempty, not `.`,
slash-free; all `..` elements are leading; a rooted path has none. -/
structure SegsOK (rooted : Bool) (segs : List GoStr) : Prop where
  elems : ∀ p ∈ segs, p ≠ [] ∧ p ≠ ['.'] ∧ '/' ∉ p
  ddLead : dd ∉ segs.dropWhile (· = dd)
  noDdOfRooted : rooted = true → dd ∉ segs

/-- Invariant carried by the `cleanStep` fold (the stack is in reverse order,
so leading `..` elements sit at its end). -/
structure StackInv (rooted : Bool) (acc : List GoStr) : Prop where
  elems : ∀ p ∈ acc, p ≠ [] ∧ p ≠ ['.'] ∧ '/' ∉ p
  shape : ∃ front k, acc = front ++ List.replicate k dd ∧ dd ∉ front
  noDdOfRooted : rooted = true → dd ∉ acc

/-!
## `filepath.Join`, `filepath.Dir`, `filepath.IsAbs`, `filepath.Rel` (Unix)
-/

/-- Model of Go `filepath.Join` for two arguments: empty elements are skipped
and the joined string is cleaned (`filepath.Join` returns `""` when all
elements are empty). -/
def joinPath (a b : GoStr) : GoStr :=
  if a = [] ∧ b = [] then []
  else if a = [] then clean b
  else if b = [] then clean a
  else clean (a ++ '/' :: b)

/-- Model of Go `filepath.IsAbs` on Unix. -/
def isAbs (p : GoStr) : Bool := hasPref p ['/']

/-- Model of Go `filepath.Dir` on Unix: everything up to and including the
final separator, cleaned; `.` when there is no separator. -/
def dirPath (p : GoStr) : GoStr :=
  clean ((p.reverse.dropWhile (· ≠ '/')).reverse)

/-- The element list Go's `filepath.Rel` walks over for a cleaned input:
`""` has none, `"/"` has a single empty element, anything else splits on the
separator. -/
def relElemsOf (s : GoStr) : List GoStr :=
  if s = [] then []
  else if s = ['/'] then [[]]
  else splitSlash s

/-- Length of the common element prefix, as walked by `filepath.Rel`. -/
def commonPrefixLen : List GoStr → List GoStr → ℕ
  | a :: as, b :: bs => if a = b then commonPrefixLen as bs + 1 else 0
  | _, _ => 0

/-- The `.`-to-empty normalisation `filepath.Rel` applies to its base. -/
def dotNorm (b : GoStr) : GoStr := if b = ['.'] then [] else b

/-- The element walk of `filepath.Rel` after the differing position is found:
a first differing base element of `..` is an error; remaining base elements
each contribute a `..`; the remaining target elements are appended. -/
def relWalk (be te : List GoStr) : Option GoStr :=
  if (be.drop (commonPrefixLen be te)).head? = some dd then none
  else if be.drop (commonPrefixLen be te) ≠ [] then
    some (joinSlash (List.replicate (be.drop (commonPrefixLen be te)).length dd ++
      te.drop (commonPrefixLen be te)))
  else
    some (joinSlash (te.drop (commonPrefixLen be te)))

/-- `filepath.Rel` on already-cleaned arguments: identical strings are `.`;
the `.` base becomes empty; mixed rooted/relative arguments are an error;
otherwise the element walk decides. -/
def relCore (base targ : GoStr) : Option GoStr :=
  if targ = base then some ['.']
  else if (hasPref (dotNorm base) ['/']) ≠ (hasPref targ ['/']) then none
  else relWalk (relElemsOf (dotNorm base)) (relElemsOf targ)

/-- Model of Go `filepath.Rel` on Unix (element-level formulation of the
byte-scanning loop; both paths are cleaned first). -/
def rel (basepath targpath : GoStr) : Option GoStr :=
  relCore (clean basepath) (clean targpath)

/-!
## Path safety (engine.go)
-/

/-- The escape test shared by `safeJoin` and `safeSymlinkTarget`: the path of
`candidate` relative to `base` must exist and be neither `..` nor start with
`../`. -/
def escapes (base candidate : GoStr) : Bool :=
  match rel base candidate with
  | none => true
  | some r => r = dd || hasPref r ('.' :: '.' :: '/' :: [])

/-- The joined, cleaned candidate path built by `safeJoin`. -/
def safeJoinCandidate (base member : GoStr) : GoStr :=
  clean (joinPath (clean base) (trimPref member ['/']))

/-- Model of `safeJoin` (engine.go): clean the base, strip one leading slash
from the member, join and clean, then require the result not to escape the
base under the relative-path test. -/
def safeJoin (base member : GoStr) : Option GoStr :=
  let b := clean base
  let m := trimPref member ['/']
  let candidate := clean (joinPath b m)
  match rel b candidate with
  | none => none
  | some r =>
    if r = dd || hasPref r ('.' :: '.' :: '/' :: []) then none
    else some candidate

/-- The resolved symlink target path computed by `safeSymlinkTarget`. -/
def symlinkResolved (base symlinkPath linkname : GoStr) : GoStr :=
  if isAbs linkname then clean (joinPath (clean base) linkname)
  else clean (joinPath (dirPath symlinkPath) linkname)

/-- Model of `safeSymlinkTarget` (engine.go): reject an empty target; resolve
an absolute target inside the base and a relative target against the
symlink's parent directory; reject when the resolved path escapes the base.
Returns `true` when the symlink is allowed. -/
def safeSymlinkTarget (base symlinkPath linkname : GoStr) : Bool :=
  if linkname = [] then false
  else
    let resolved :=
      if isAbs linkname then clean (joinPath (clean base) linkname)
      else clean (joinPath (dirPath symlinkPath) linkname)
    match rel (clean base) resolved with
    | none => false
    | some r => !(r = dd || hasPref r ('.' :: '.' :: '/' :: []))

/-- The short name for the cleaned element list of a path. -/
def segsOf (p : GoStr) : List GoStr :=
  cleanSegs (hasPref p ['/']) (splitSlash p)

/-!
## `stripPathComponents` (engine.go)
-/

/-- The path segments `stripPathComponents` counts: split the cleaned,
slash-trimmed name and drop empty and `.` pieces. -/
def stripSegments (name : GoStr) : List GoStr :=
  (splitSlash (clean (trimPref name ['/']))).filter (fun p => p ≠ [] ∧ p ≠ ['.'])

/-- Model of `stripPathComponents` (engine.go). The count is a Go `int`. -/
def stripPathComponents (name : GoStr) (count : Int) : GoStr × Bool :=
  if count ≤ 0 then (name, true)
  else
    let parts := stripSegments name
    if (parts.length : Int) ≤ count then ([], false)
    else (joinSlash (parts.drop count.toNat), true)

/-!
## Compression layer (internal/compress/compress.go)

Byte streams are modelled as `List Nat`; the reading side of a codec is not
modelled beyond which codec wraps the stream, which is what detection
decides.
-/

/-- Compression types (compress.go `Type`). -/
inductive CType where
  | Auto | None | Gzip | Bzip2 | Xz | Zstd | Lz4
deriving DecidableEq

/-- Model of `detectByMagic`: match the peeked bytes against the fixed
magic-byte table. -/
def detectByMagic (magic : List Nat) : CType :=
  if 2 ≤ magic.length ∧ magic.take 2 = [0x1f, 0x8b] then CType.Gzip
  else if 3 ≤ magic.length ∧ magic.take 3 = [0x42, 0x5a, 0x68] then CType.Bzip2
  else if 6 ≤ magic.length ∧ magic.take 6 = [0xfd, 0x37, 0x7a, 0x58, 0x5a, 0x00] then CType.Xz
  else if 4 ≤ magic.length ∧ magic.take 4 = [0x28, 0xb5, 0x2f, 0xfd] then CType.Zstd
  else if 4 ≤ magic.length ∧ magic.take 4 = [0x04, 0x22, 0x4d, 0x18] then CType.Lz4
  else CType.Auto

/-- ASCII lower-casing of one character (`strings.ToLower` on ASCII input). -/
def lowerChar (c : Char) : Char :=
  if 'A' ≤ c ∧ c ≤ 'Z' then Char.ofNat (c.toNat + 32) else c

/-- `strings.ToLower` (ASCII). -/
def toLower (s : GoStr) : GoStr := s.map lowerChar

/-- Model of `filepath.Ext`: the suffix starting at the final dot in the last
slash-separated element, empty when there is none. -/
def extPath (p : GoStr) : GoStr :=
  let revSeg := p.reverse.takeWhile (· ≠ '/')
  if revSeg.contains '.' then '.' :: (revSeg.takeWhile (· ≠ '.')).reverse else []

/-- Model of `detectByExt`: the filename-extension table. -/
def detectByExt (name : GoStr) : CType :=
  let ext := toLower (extPath name)
  if ext = ".gz".toList ∨ ext = ".tgz".toList then CType.Gzip
  else if ext = ".bz2".toList ∨ ext = ".tbz2".toList ∨ ext = ".tbz".toList then CType.Bzip2
  else if ext = ".xz".toList ∨ ext = ".txz".toList then CType.Xz
  else if ext = ".zst".toList ∨ ext = ".tzst".toList ∨ ext = ".zstd".toList then CType.Zstd
  else if ext = ".lz4".toList ∨ ext = ".tlz4".toList then CType.Lz4
  else CType.Auto

/-- Model of `NewReader`'s codec selection: the first component is the codec
handed to `wrapReader` (the codec actually wrapping the stream), the second
is the detected type returned to the caller.  An explicit type short-circuits
detection; `Auto` peeks the first 8 bytes, falls back to the filename
extension, then to `None`. -/
def newReaderChoice (explicit : CType) (data : List Nat) (hint : GoStr) :
    CType × CType :=
  if explicit ≠ CType.Auto then (explicit, explicit)
  else
    let t0 := detectByMagic (data.take 8)
    let t1 := if t0 = CType.Auto then detectByExt hint else t0
    let t2 := if t1 = CType.Auto then CType.None else t1
    (t2, t2)

/-!
## `path.Match` (Go standard library), the glob matcher behind
`matchExclude`

`goMatch` mirrors Go's `Match`: the result pair is (matched, bad-pattern
error flag); Go returns `matched = false` whenever it reports
`ErrBadPattern`.
-/

/-- Inner scan of `scanChunk`: the chunk extends to the first unescaped `*`
outside a character class; an escaped character contributes both bytes; a
trailing backslash stays in the chunk. -/
def scanBody : Bool → GoStr → GoStr × GoStr
  | _, [] => ([], [])
  | inrange, c :: rest =>
    if c = '*' ∧ inrange = false then ([], c :: rest)
    else if c = '\\' then
      match rest with
      | [] => (['\\'], [])
      | d :: rest' =>
        let pr := scanBody inrange rest'
        ('\\' :: d :: pr.1, pr.2)
    else
      let inrange' := if c = '[' then true else if c = ']' then false else inrange
      let pr := scanBody inrange' rest
      (c :: pr.1, pr.2)

/-- Model of Go `scanChunk`: strip leading `*`s (remembering whether any was
present) and cut the pattern at the next top-level `*`. -/
def scanChunk (pattern : GoStr) : Bool × GoStr × GoStr :=
  let star := decide (pattern.head? = some '*')
  let pr := scanBody false (pattern.dropWhile (· = '*'))
  (star, pr.1, pr.2)

/-- Model of Go `getEsc`: read one (possibly escaped) class character;
errors on an empty chunk, a leading `-` or `]`, a trailing escape, or when
nothing follows the character. -/
def getEsc : GoStr → Option (Char × GoStr)
  | [] => none
  | c :: rest =>
    if c = '-' ∨ c = ']' then none
    else if c = '\\' then
      match rest with
      | [] => none
      | d :: rest' => if rest' = [] then none else some (d, rest')
    else if rest = [] then none else some (c, rest)

/-- The character-class range loop of Go `matchChunk` (`r` is the name
character being classified; returns the chunk after `]` and whether some
range matched).  The fuel argument only bounds the recursion: every step
consumes at least one chunk character, so `chunk.length + 1` never runs out. -/
def matchRangesF : ℕ → Char → GoStr → ℕ → Bool → Option (GoStr × Bool)
  | 0, _, _, _, _ => none
  | fuel + 1, r, chunk, nrange, m =>
    if chunk.head? = some ']' ∧ 0 < nrange then some (chunk.tail, m)
    else
      match getEsc chunk with
      | none => none
      | some (lo, chunk1) =>
        if chunk1.head? = some '-' then
          match getEsc chunk1.tail with
          | none => none
          | some (hi, chunk2) =>
            matchRangesF fuel r chunk2 (nrange + 1)
              (m || (decide (lo ≤ r) && decide (r ≤ hi)))
        else
          matchRangesF fuel r chunk1 (nrange + 1)
            (m || (decide (lo ≤ r) && decide (r ≤ lo)))

def matchRanges (r : Char) (chunk : GoStr) (nrange : ℕ) (m : Bool) :
    Option (GoStr × Bool) :=
  matchRangesF (chunk.length + 1) r chunk nrange m

/-- The chunk-against-name matcher of Go `path.Match` (`matchChunk`): returns
the remaining name and whether the chunk matched; `none` is `ErrBadPattern`.
After a mismatch the chunk is still consumed to check well-formedness.  The
fuel bounds the recursion; each step strictly shrinks the chunk, so
`chunk.length + 1` suffices. -/
def matchChunkF : ℕ → GoStr → GoStr → Bool → Option (GoStr × Bool)
  | 0, _, _, _ => none
  | fuel + 1, chunk, s, failed =>
    match chunk with
    | [] => if failed then some ([], false) else some (s, true)
    | c :: chunkRest =>
      let failed1 := failed || s.isEmpty
      if c = '[' then
        let r := if failed1 then '\x00' else s.headD '\x00'
        let s' := if failed1 then s else s.tail
        let negated := decide (chunkRest.head? = some '^')
        let chunk1 := if chunkRest.head? = some '^' then chunkRest.tail else chunkRest
        match matchRanges r chunk1 0 false with
        | none => none
        | some (chunkNext, m) => matchChunkF fuel chunkNext s' (failed1 || (m == negated))
      else if c = '?' then
        if failed1 then matchChunkF fuel chunkRest s failed1
        else
          match s with
          | [] => matchChunkF fuel chunkRest s true
          | sc :: st => matchChunkF fuel chunkRest st (decide (sc = '/'))
      else if c = '\\' then
        match chunkRest with
        | [] => none
        | d :: chunkRest' =>
          if failed1 then matchChunkF fuel chunkRest' s failed1
          else
            match s with
            | [] => matchChunkF fuel chunkRest' s true
            | sc :: st => matchChunkF fuel chunkRest' st (decide (¬ d = sc))
      else
        if failed1 then matchChunkF fuel chunkRest s failed1
        else
          match s with
          | [] => matchChunkF fuel chunkRest s true
          | sc :: st => matchChunkF fuel chunkRest st (decide (¬ c = sc))

def matchChunk (chunk s : GoStr) (failed : Bool) : Option (GoStr × Bool) :=
  matchChunkF (chunk.length + 1) chunk s failed

/-- The trailing well-formedness check of Go `Match`: every remaining chunk
must parse cleanly (matched against the empty name).  Fuel bounds the
recursion; the pattern shrinks every step. -/
def syntaxOkF : ℕ → GoStr → Bool
  | 0, _ => false
  | fuel + 1, pattern =>
    if pattern = [] then true
    else
      match matchChunk (scanChunk pattern).2.1 [] false with
      | none => false
      | some _ => syntaxOkF fuel (scanChunk pattern).2.2

def syntaxOk (pattern : GoStr) : Bool :=
  syntaxOkF (pattern.length + 1) pattern

/-- Result of the `*`-backtracking loop in Go `Match`. -/
inductive StarRes where
  | found (t : GoStr)
  | errRes
  | noHit

/-- The `*`-backtracking loop: skip one name character at a time (never past
a separator) and retry the chunk; a last-chunk match must consume the name. -/
def starSearch (chunk rest : GoStr) : GoStr → StarRes
  | [] => .noHit
  | c :: name' =>
    if c = '/' then .noHit
    else
      match matchChunk chunk name' false with
      | some (t, true) =>
        if rest = [] ∧ t ≠ [] then starSearch chunk rest name' else .found t
      | some (_, false) => starSearch chunk rest name'
      | none => .errRes

/-- Model of Go `path.Match`, fuelled: the pair is (matched, bad-pattern
flag).  Each loop iteration consumes at least one pattern character, so
`pattern.length + 1` fuel never runs out. -/
def goMatchF : ℕ → GoStr → GoStr → Bool × Bool
  | 0, _, _ => (false, false)
  | fuel + 1, pattern, name =>
    if pattern = [] then (name.isEmpty, false)
    else
      if (scanChunk pattern).1 = true ∧ (scanChunk pattern).2.1 = [] then
        (!(name.contains '/'), false)
      else
        match matchChunk (scanChunk pattern).2.1 name false with
        | none => (false, true)
        | some (t, ok) =>
          if ok = true ∧ (t = [] ∨ (scanChunk pattern).2.2 ≠ []) then
            goMatchF fuel (scanChunk pattern).2.2 t
          else if (scanChunk pattern).1 = true then
            match starSearch (scanChunk pattern).2.1 (scanChunk pattern).2.2 name with
            | .found t' => goMatchF fuel (scanChunk pattern).2.2 t'
            | .errRes => (false, true)
            | .noHit => (false, !syntaxOk (scanChunk pattern).2.2)
          else (false, !syntaxOk (scanChunk pattern).2.2)

/-- Model of Go `path.Match`. -/
def goMatch (pattern name : GoStr) : Bool × Bool :=
  goMatchF (pattern.length + 1) pattern name

/-- Model of `matchExclude` (engine.go): a name is excluded when some pattern
matches it; `path.Match` errors are discarded. -/
def matchExclude (patterns : List GoStr) (name : GoStr) : Bool :=
  patterns.any fun p => (goMatch p name).1

/-!
## The create-side walk with exclude pruning (engine.go `addLocalPath`)

The local filesystem is modelled as a tree; `filepath.WalkDir`'s visit order
is directory-entry order; a matched directory raises `SkipDir` (pruning its
subtree) and a matched file is skipped.
-/

/-- A node of the local filesystem tree. -/
inductive FSNode where
  | file (name : GoStr)
  | dir (name : GoStr) (children : List FSNode)

def nodeName : FSNode → GoStr
  | .file n => n
  | .dir n _ => n

mutual
/-- The archive names produced by walking one node of `addLocalPath`'s tree
walk: the archive name is `path.Join(cleanMember, rel)` (`cleanMember` for
the root itself); a name matching an exclude pattern is skipped, and a
matched directory's whole subtree is skipped (`SkipDir`). -/
def walkNode (excludes : List GoStr) (cleanMember : GoStr) :
    FSNode → List GoStr → List GoStr
  | .file _, relSegs =>
    let archiveName :=
      if relSegs = [] then cleanMember else joinPath cleanMember (joinSlash relSegs)
    if matchExclude excludes archiveName then [] else [archiveName]
  | .dir _ children, relSegs =>
    let archiveName :=
      if relSegs = [] then cleanMember else joinPath cleanMember (joinSlash relSegs)
    if matchExclude excludes archiveName then []
    else archiveName :: walkChildren excludes cleanMember children relSegs

/-- Walk the children of a directory in order, extending the relative path
with each child's name. -/
def walkChildren (excludes : List GoStr) (cleanMember : GoStr) :
    List FSNode → List GoStr → List GoStr
  | [], _ => []
  | c :: cs, relSegs =>
    walkNode excludes cleanMember c (relSegs ++ [nodeName c]) ++
      walkChildren excludes cleanMember cs relSegs
end

/-- The archive entries `addLocalPath` records for one local member: the walk
starts at the member's root with `cleanMember = path.Clean(member)`. -/
def addLocalPathEntries (member : GoStr) (excludes : List GoStr)
    (root : FSNode) : List GoStr :=
  walkNode excludes (clean member) root []

/-- The testdata tree `parent/.exclude/secret.txt`. -/
def excludeTree : FSNode :=
  .dir ("parent".toList) [.dir (".exclude".toList) [.file ("secret.txt".toList)]]

/-!
## Exit classification and the S3 metadata size heuristic
(engine.go `classifyResult` / `extractToS3`, archive `HeaderToS3Metadata`)
-/

def ExitSuccess : Int := 0

def ExitWarning : Int := 1

def ExitFatal : Int := 2

structure RunResult where
  exitCode : Int
  err : Option GoStr
deriving DecidableEq

/-- Model of `classifyResult` (engine.go). -/
def classifyResult (err : Option GoStr) (warnings : Int) : RunResult :=
  match err with
  | some e => { exitCode := ExitFatal, err := some e }
  | none =>
    if 0 < warnings then { exitCode := ExitWarning, err := none }
    else { exitCode := ExitSuccess, err := none }

/-- `strconv.FormatInt v base` (and `Itoa` at base 10). -/
def formatInt (v : Int) (base : Nat) : GoStr :=
  if v < 0 then '-' :: Nat.toDigits base (-v).toNat else Nat.toDigits base v.toNat

def itoa (v : Int) : GoStr := formatInt v 10

/-- A tar header, restricted to the fields this development uses. -/
structure TarHeader where
  name : GoStr
  typeflag : Char
  mode : Int
  uid : Int
  gid : Int
  mtimeUnix : Int
  linkname : GoStr
  uname : GoStr
  gname : GoStr
  size : Int
  paxRecords : List (GoStr × GoStr)

/-- Go map assignment `m[k] = v` on an association-list model. -/
def setMeta (m : List (GoStr × GoStr)) (k v : GoStr) : List (GoStr × GoStr) :=
  if (m.find? (fun kv => kv.1 = k)).isSome
  then m.map (fun kv => if kv.1 = k then (k, v) else kv)
  else m ++ [(k, v)]

/-- Go map lookup on the association-list model. -/
def lookupMeta (m : List (GoStr × GoStr)) (k : GoStr) : Option GoStr :=
  (m.find? (fun kv => kv.1 = k)).map Prod.snd

/-- Model of `HeaderToS3Metadata` (archive package): the header-derived
object metadata pairs and whether their total key+value size fits the
1500-byte heuristic. -/
def headerToS3Metadata (hdr : TarHeader) : List (GoStr × GoStr) × Bool :=
  let meta : List (GoStr × GoStr) := [
    ("gotgz-type".toList, itoa (hdr.typeflag.toNat : Int)),
    ("gotgz-mode".toList, formatInt hdr.mode 8),
    ("gotgz-uid".toList, itoa hdr.uid),
    ("gotgz-gid".toList, itoa hdr.gid),
    ("gotgz-mtime".toList, itoa hdr.mtimeUnix)]
  let meta := meta ++
    (if hdr.linkname ≠ [] then [("gotgz-linkname".toList, hdr.linkname)] else [])
  let meta := meta ++
    (if hdr.uname ≠ [] then [("gotgz-uname".toList, hdr.uname)] else [])
  let meta := meta ++
    (if hdr.gname ≠ [] then [("gotgz-gname".toList, hdr.gname)] else [])
  let total : ℕ := (meta.map (fun kv => kv.1.length + kv.2.length)).sum
  (meta, decide (total ≤ 1500))

/-- Model of `mergeMetadata` (engine.go): copy base, then overlay wins. -/
def mergeMetadata (base overlay : List (GoStr × GoStr)) : List (GoStr × GoStr) :=
  overlay.foldl (fun acc kv => setMeta acc kv.1 kv.2) base

/-- `strings.TrimSuffix s suf`. -/
def trimSuffix (s suf : GoStr) : GoStr :=
  if suf.isSuffixOf s then s.take (s.length - suf.length) else s

/-- Model of `JoinS3Prefix` (locator package). -/
def joinS3Prefix (pre name : GoStr) : GoStr :=
  let pre1 := trimSuffix (trimPref pre ['/']) ['/']
  let name1 := trimPref name ['/']
  if pre1 = [] then name1
  else if name1 = [] then pre1
  else pre1 ++ '/' :: name1

/-- A destination object-store reference. -/
structure S3Ref where
  bucket : GoStr
  key : GoStr
  metadata : List (GoStr × GoStr)

/-- The body an `extractToS3` upload carries. -/
inductive S3Body where
  | fromTar (limit : Int)
  | emptyBody
deriving DecidableEq

/-- One `UploadStream` call issued by `extractToS3`. -/
structure S3Upload where
  bucket : GoStr
  key : GoStr
  body : S3Body
  metadata : List (GoStr × GoStr)

/-- Model of `extractToS3` (engine.go): returns the number of warnings
recorded and the uploads issued for this entry.  `'0'` is `tar.TypeReg`,
`'5'` is `tar.TypeDir`. -/
def extractToS3 (target : S3Ref) (hdr : TarHeader) : Int × List S3Upload :=
  let name := trimPref hdr.name ("./".toList)
  if name = [] then (0, [])
  else
    let objKey := joinS3Prefix target.key name
    let ok := (headerToS3Metadata hdr).2
    let meta := mergeMetadata target.metadata (headerToS3Metadata hdr).1
    let warnings : Int := if ok then 0 else 1
    if hdr.typeflag = '0' then
      (warnings,
        [{ bucket := target.bucket, key := objKey, body := .fromTar hdr.size,
           metadata := meta }])
    else if hdr.typeflag = '5' then
      (warnings, [])
    else
      (warnings,
        [{ bucket := target.bucket, key := objKey, body := .emptyBody,
           metadata := setMeta meta ("gotgz-type".toList)
             (itoa (hdr.typeflag.toNat : Int)) }])

/-!
## Reference resolver (locator package) and `net/url` percent-coding
-/

def hexDigitVal (c : Char) : Option ℕ :=
  if '0' ≤ c ∧ c ≤ '9' then some (c.toNat - '0'.toNat)
  else if 'a' ≤ c ∧ c ≤ 'f' then some (c.toNat - 'a'.toNat + 10)
  else if 'A' ≤ c ∧ c ≤ 'F' then some (c.toNat - 'A'.toNat + 10)
  else none

/-- Go `net/url` unescaping: `%XX` decodes a byte (invalid hex is an error);
`+` becomes a space only in query mode. -/
def unescapeGo (plusToSpace : Bool) : GoStr → Option GoStr
  | [] => some []
  | c :: rest =>
    if c = '%' then
      match rest with
      | h1 :: h2 :: rest' =>
        match hexDigitVal h1, hexDigitVal h2 with
        | some a, some b =>
          (unescapeGo plusToSpace rest').map (fun t => Char.ofNat (a * 16 + b) :: t)
        | _, _ => none
      | _ => none
    else if c = '+' ∧ plusToSpace = true then
      (unescapeGo plusToSpace rest).map (fun t => ' ' :: t)
    else
      (unescapeGo plusToSpace rest).map (fun t => c :: t)

/-- `url.QueryUnescape`. -/
def queryUnescape (s : GoStr) : Option GoStr := unescapeGo true s

def isUnreservedQuery (c : Char) : Bool :=
  ('A' ≤ c ∧ c ≤ 'Z') ∨ ('a' ≤ c ∧ c ≤ 'z') ∨ ('0' ≤ c ∧ c ≤ '9') ∨
    c = '-' ∨ c = '_' ∨ c = '.' ∨ c = '~'

def hexUpper (n : ℕ) : Char :=
  if n < 10 then Char.ofNat ('0'.toNat + n) else Char.ofNat ('A'.toNat + n - 10)

/-- `url.QueryEscape`: unreserved bytes pass through, space becomes `+`,
everything else becomes `%XX` with uppercase hex. -/
def queryEscape : GoStr → GoStr
  | [] => []
  | c :: rest =>
    if isUnreservedQuery c then c :: queryEscape rest
    else if c = ' ' then '+' :: queryEscape rest
    else '%' :: hexUpper (c.toNat / 16) :: hexUpper (c.toNat % 16) :: queryEscape rest

/-- Split off the longest prefix free of the stop characters. -/
def takeUntil (stops : List Char) (s : GoStr) : GoStr × GoStr :=
  (s.takeWhile (fun c => ¬ stops.contains c), s.dropWhile (fun c => ¬ stops.contains c))

def isLetter (c : Char) : Bool := ('a' ≤ c ∧ c ≤ 'z') ∨ ('A' ≤ c ∧ c ≤ 'Z')

/-- Go `getScheme` validity: a letter followed by letters, digits, `+`, `-`,
`.`. -/
def validScheme (s : GoStr) : Bool :=
  match s with
  | [] => false
  | c :: rest =>
    isLetter c && rest.all (fun d =>
      isLetter d || ('0' ≤ d ∧ d ≤ '9') || d = '+' || d = '-' || d = '.')

/-- The host part of an authority: everything after the last `@`. -/
def afterLastAt (auth : GoStr) : GoStr :=
  if auth.contains '@' then (auth.reverse.takeWhile (· ≠ '@')).reverse else auth

structure GoURL where
  scheme : GoStr
  host : GoStr
  path : GoStr
  rawQuery : GoStr

/-- Model of `net/url.Parse` restricted to the `scheme://authority/path?query`
shape that `s3://` references take: the fragment is cut at `#`, the scheme is
validated and lowercased, the authority runs to the first `/` or `?`, the
userinfo is dropped from the host, and percent-escapes in host and path are
validated and decoded (an invalid escape is a parse error, as in Go).
Opaque and scheme-less URLs are outside the modelled shape. -/
def urlParse (v : GoStr) : Option GoURL :=
  let vf := (takeUntil ['#'] v).1
  let sch := (takeUntil [':'] vf).1
  match (takeUntil [':'] vf).2 with
  | ':' :: rest1 =>
    if ¬ validScheme sch then none
    else if hasPref rest1 ("//".toList) then
      let r := rest1.drop 2
      let auth := (takeUntil ['/', '?'] r).1
      let rest2 := (takeUntil ['/', '?'] r).2
      match unescapeGo false (afterLastAt auth) with
      | none => none
      | some hostDec =>
        match unescapeGo false ((takeUntil ['?'] rest2).1) with
        | none => none
        | some pathDec =>
          let rawQuery := match (takeUntil ['?'] rest2).2 with
            | '?' :: q => q
            | _ => []
          some { scheme := toLower sch, host := hostDec, path := pathDec,
                 rawQuery := rawQuery }
    else none
  | _ => none

inductive RefKind where
  | localKind | stdioKind | s3Kind
deriving DecidableEq

structure Ref where
  kind : RefKind
  raw : GoStr
  path : GoStr
  bucket : GoStr
  key : GoStr
  metadata : List (GoStr × GoStr)
deriving DecidableEq

def isSpaceChar (c : Char) : Bool := c = ' ' ∨ c = '\t' ∨ c = '\n' ∨ c = '\r'

/-- `strings.TrimSpace` (ASCII whitespace). -/
def trimSpace (s : GoStr) : GoStr :=
  ((s.dropWhile isSpaceChar).reverse.dropWhile isSpaceChar).reverse

/-- One query pair added to the metadata map; repeated keys join values with
a comma (the map-then-sorted-iteration of the Go code is modelled by
first-appearance order). -/
def addQueryPair (acc : List (GoStr × GoStr)) (k v : GoStr) : List (GoStr × GoStr) :=
  match lookupMeta acc k with
  | some old => setMeta acc k (old ++ ',' :: v)
  | none => acc ++ [(k, v)]

/-- Model of `parseQueryMetadata` composed with `url.Values` parsing: split
the raw query on `&`, split each part at the first `=`, query-unescape both
sides (a bad escape drops the pair, as `Query()` does), trim and drop empty
keys. -/
def parseQueryMetadata (rawQuery : GoStr) : List (GoStr × GoStr) :=
  let parts := rawQuery.splitOn '&'
  parts.foldl (fun acc part =>
    if part = [] then acc
    else
      let k := (takeUntil ['='] part).1
      let v := match (takeUntil ['='] part).2 with
        | '=' :: rest => rest
        | _ => []
      match queryUnescape k, queryUnescape v with
      | some k', some v' =>
        let key := trimSpace k'
        if key = [] then acc else addQueryPair acc key v'
      | _, _ => acc) []

/-- Model of `parseS3URI` (locator package). -/
def parseS3URI (v : GoStr) : Except GoStr Ref :=
  match urlParse v with
  | none => .error ("invalid s3 uri".toList)
  | some u =>
    if u.scheme ≠ ("s3".toList) then .error ("unsupported uri scheme".toList)
    else
      let bucket := u.host
      let key := trimPref u.path ['/']
      if bucket = [] then .error ("s3 uri must include bucket".toList)
      else .ok { kind := .s3Kind, raw := v, path := [], bucket := bucket, key := key,
                 metadata := parseQueryMetadata u.rawQuery }

/-- `strings.SplitN s (String.singleton sep) n` for `n ≥ 1`. -/
def splitN (sep : Char) : ℕ → GoStr → List GoStr
  | 0, _ => []
  | 1, s => [s]
  | n + 2, s =>
    match (takeUntil [sep] s).2 with
    | [] => [s]
    | _ :: after => (takeUntil [sep] s).1 :: splitN sep (n + 1) after

structure ARN where
  partition : GoStr
  service : GoStr
  region : GoStr
  accountID : GoStr
  resource : GoStr

/-- Model of `aws/arn.Parse`: requires the `arn:` prefix and six
colon-separated sections. -/
def arnParse (v : GoStr) : Option ARN :=
  if ¬ hasPref v ("arn:".toList) then none
  else
    let sections := splitN ':' 6 v
    if sections.length ≠ 6 then none
    else some { partition := sections.getD 1 [], service := sections.getD 2 [],
                region := sections.getD 3 [], accountID := sections.getD 4 [],
                resource := sections.getD 5 [] }

/-- `strings.SplitN s pat 2` on a multi-character separator: the text before
the first occurrence and the text after it, or `none` when absent. -/
def splitOnceSub : GoStr → GoStr → Option (GoStr × GoStr)
  | s, pat =>
    match s with
    | [] => if pat = [] then some ([], []) else none
    | c :: rest =>
      if pat.isPrefixOf (c :: rest) then some ([], (c :: rest).drop pat.length)
      else (splitOnceSub rest pat).map (fun pr => (c :: pr.1, pr.2))

/-- Model of `parseS3ARN` (locator package). -/
def parseS3ARN (v : GoStr) : Except GoStr Ref :=
  match arnParse v with
  | none => .error ("invalid arn".toList)
  | some a =>
    if a.service ≠ ("s3".toList) then .error ("unsupported arn service".toList)
    else if hasPref a.resource ("accesspoint/".toList) then
      match splitOnceSub a.resource ("/object/".toList) with
      | none => .error ("unsupported accesspoint arn".toList)
      | some (p0, p1) =>
        if p1 = [] then .error ("unsupported accesspoint arn".toList)
        else
          let bucketARN := ("arn:".toList) ++ a.partition ++ ':' :: a.service ++
            ':' :: a.region ++ ':' :: a.accountID ++ ':' :: p0
          .ok { kind := .s3Kind, raw := v, path := [], bucket := bucketARN,
                key := p1, metadata := [] }
    else
      let resource := if hasPref a.resource (":::".toList)
        then a.resource.drop 3 else a.resource
      let resource := if hasPref resource ("bucket/".toList)
        then resource.drop 7 else resource
      let parts := splitN '/' 2 resource
      if parts.length ≠ 2 ∨ parts.getD 0 [] = [] ∨ parts.getD 1 [] = [] then
        .error ("unsupported s3 arn".toList)
      else
        .ok { kind := .s3Kind, raw := v, path := [], bucket := parts.getD 0 [],
              key := parts.getD 1 [], metadata := [] }

/-- Model of `ParseArchive` (locator package).  `ParseMember` differs only in
the `-` case. -/
def ParseArchive (v : GoStr) : Except GoStr Ref :=
  if v = ("-".toList) then
    .ok { kind := .stdioKind, raw := v, path := [], bucket := [], key := [], metadata := [] }
  else if hasPref v ("s3://".toList) then parseS3URI v
  else if hasPref v ("arn:".toList) then parseS3ARN v
  else .ok { kind := .localKind, raw := v, path := v, bucket := [], key := [], metadata := [] }

/-!
## PAX extended-attribute codec (archive package, `src/unnamed/part_013`)
-/

/-- The `base64.StdEncoding` alphabet. -/
def b64Char (n : ℕ) : Char :=
  if n < 26 then Char.ofNat ('A'.toNat + n)
  else if n < 52 then Char.ofNat ('a'.toNat + (n - 26))
  else if n < 62 then Char.ofNat ('0'.toNat + (n - 52))
  else if n = 62 then '+'
  else '/'

def b64Val (c : Char) : Option ℕ :=
  if 'A' ≤ c ∧ c ≤ 'Z' then some (c.toNat - 'A'.toNat)
  else if 'a' ≤ c ∧ c ≤ 'z' then some (c.toNat - 'a'.toNat + 26)
  else if '0' ≤ c ∧ c ≤ '9' then some (c.toNat - '0'.toNat + 52)
  else if c = '+' then some 62
  else if c = '/' then some 63
  else none

/-- `base64.StdEncoding.EncodeToString` on a byte list: each three-byte group
`n = b0*65536 + b1*256 + b2` becomes four sextet characters, with `=` padding
for one- and two-byte tails. -/
def encodeB64 : List ℕ → GoStr
  | [] => []
  | [b0] =>
    [b64Char (b0 % 256 * 65536 / 262144 % 64),
     b64Char (b0 % 256 * 65536 / 4096 % 64), '=', '=']
  | [b0, b1] =>
    [b64Char ((b0 % 256 * 65536 + b1 % 256 * 256) / 262144 % 64),
     b64Char ((b0 % 256 * 65536 + b1 % 256 * 256) / 4096 % 64),
     b64Char ((b0 % 256 * 65536 + b1 % 256 * 256) / 64 % 64), '=']
  | b0 :: b1 :: b2 :: rest =>
    b64Char ((b0 % 256 * 65536 + b1 % 256 * 256 + b2 % 256) / 262144 % 64) ::
    b64Char ((b0 % 256 * 65536 + b1 % 256 * 256 + b2 % 256) / 4096 % 64) ::
    b64Char ((b0 % 256 * 65536 + b1 % 256 * 256 + b2 % 256) / 64 % 64) ::
    b64Char ((b0 % 256 * 65536 + b1 % 256 * 256 + b2 % 256) % 64) :: encodeB64 rest

/-- `base64.StdEncoding.DecodeString`: four-character quanta, padding only at
the end, alphabet violations are errors (the non-strict decoder does not
check trailing bits). -/
def decodeB64 : GoStr → Option (List ℕ)
  | [] => some []
  | c0 :: c1 :: c2 :: c3 :: rest =>
    if rest = [] ∧ c2 = '=' ∧ c3 = '=' then
      match b64Val c0, b64Val c1 with
      | some v0, some v1 => some [v0 * 4 + v1 / 16]
      | _, _ => none
    else if rest = [] ∧ c3 = '=' then
      match b64Val c0, b64Val c1, b64Val c2 with
      | some v0, some v1, some v2 => some [v0 * 4 + v1 / 16, v1 % 16 * 16 + v2 / 4]
      | _, _, _ => none
    else
      match b64Val c0, b64Val c1, b64Val c2, b64Val c3 with
      | some v0, some v1, some v2, some v3 =>
        (decodeB64 rest).map (fun t =>
          (v0 * 4 + v1 / 16) :: (v1 % 16 * 16 + v2 / 4) :: (v2 % 4 * 64 + v3) :: t)
      | _, _, _, _ => none
  | _ => none

/-- `xattrPrefix` constant of the archive package. -/
def xattrPref : GoStr := ("GOTGZ.xattr.").toList

/-- Go map assignment for the byte-valued attribute map. -/
def setAttr (m : List (GoStr × List ℕ)) (k : GoStr) (v : List ℕ) :
    List (GoStr × List ℕ) :=
  if (m.find? (fun kv => kv.1 = k)).isSome
  then m.map (fun kv => if kv.1 = k then (k, v) else kv)
  else m ++ [(k, v)]

/-- Model of `EncodeXattrToPAX`: each attribute `k = v` is stored in the PAX
record map as `GOTGZ.xattr.<QueryEscape k> = base64(v)` (map iteration is
modelled in list order). -/
def EncodeXattrToPAX (recs : List (GoStr × GoStr)) (attrs : List (GoStr × List ℕ)) :
    List (GoStr × GoStr) :=
  attrs.foldl (fun acc kv => setMeta acc (xattrPref ++ queryEscape kv.1) (encodeB64 kv.2)) recs

/-- One record step of `DecodeXattrFromPAX`. -/
def decodeXattrStep (acc : Except GoStr (List (GoStr × List ℕ))) (kv : GoStr × GoStr) :
    Except GoStr (List (GoStr × List ℕ)) :=
  match acc with
  | .error e => .error e
  | .ok out =>
    if hasPref kv.1 xattrPref = true then
      match queryUnescape (trimPref kv.1 xattrPref) with
      | none => .error (("decode xattr name").toList)
      | some name =>
        match decodeB64 kv.2 with
        | none => .error (("decode xattr ").toList ++ name)
        | some b => .ok (setAttr out name b)
    else acc

/-- Model of `DecodeXattrFromPAX`: records without the `GOTGZ.xattr.` prefix
are skipped; the attribute name is query-unescaped from the rest of the key
and the value base64-decoded, either failure aborting with an error. -/
def DecodeXattrFromPAX (recs : List (GoStr × GoStr)) :
    Except GoStr (List (GoStr × List ℕ)) :=
  recs.foldl decodeXattrStep (.ok [])

/-!
## Concurrent upload writer (`storage/s3/store.go`)

`OpenWriter` builds an `io.Pipe`, a 1-buffered error channel, and spawns a
goroutine running `UploadObject(pr)`; then `pr.Close()`; then `errCh <- err`;
then `close(errCh)`.  `uploadWriter.Close` runs `pw.Close()` (always `nil`
for a pipe writer) and then a blocking receive `err, ok := <-errCh`,
returning `err` when `ok && err != nil` and `nil` otherwise.  The two threads
are modelled as an interleaving transition system.
-/

/-- Program counter of the background upload goroutine. -/
inductive UpPC where
  | running | uploaded | prShut | sent | chShut
deriving DecidableEq

/-- Program counter of the caller of `uploadWriter.Close`. -/
inductive ClPC where
  | idle | pwShutAt | returned
deriving DecidableEq

/-- Joint state: both program counters, the channel buffer (capacity 1) and
closed flag, whether the pipe write end is closed, and the value `Close`
returned (`some e` once it has; `e = none` models a `nil` error). -/
structure SysState where
  up : UpPC
  cl : ClPC
  buf : Option (Option GoStr)
  chDown : Bool
  pwShut : Bool
  ret : Option (Option GoStr)
deriving DecidableEq

def initState : SysState :=
  { up := .running, cl := .idle, buf := none, chDown := false, pwShut := false,
    ret := none }

/-- One interleaved step; `taskErr` is the error the upload task completes
with (`none` for success).  The receive (`recvVal`/`recvDown`) is enabled
only when the buffer holds a value or the channel is closed — the Go receive
blocks otherwise. -/
inductive step (taskErr : Option GoStr) : SysState → SysState → Prop where
  | finish {s} : s.up = .running →
      step taskErr s { s with up := .uploaded }
  | closePR {s} : s.up = .uploaded →
      step taskErr s { s with up := .prShut }
  | send {s} : s.up = .prShut → s.buf = none →
      step taskErr s { s with up := .sent, buf := some taskErr }
  | closeCh {s} : s.up = .sent →
      step taskErr s { s with up := .chShut, chDown := true }
  | startClose {s} : s.cl = .idle →
      step taskErr s { s with cl := .pwShutAt, pwShut := true }
  | recvVal {s e} : s.cl = .pwShutAt → s.buf = some e →
      step taskErr s { s with cl := .returned, buf := none, ret := some e }
  | recvDown {s} : s.cl = .pwShutAt → s.buf = none → s.chDown = true →
      step taskErr s { s with cl := .returned, ret := some none }

/-- States reachable from the initial state. -/
def Reach (taskErr : Option GoStr) (s : SysState) : Prop :=
  Relation.ReflTransGen (step taskErr) initState s

/-- Inductive invariant of the system. -/
def Inv (taskErr : Option GoStr) (s : SysState) : Prop :=
  (∀ e, s.buf = some e → e = taskErr ∧ (s.up = .sent ∨ s.up = .chShut)) ∧
  (s.chDown = true → s.up = .chShut) ∧
  ((s.up = .sent ∨ s.up = .chShut) → s.buf = some taskErr ∨ s.cl = .returned) ∧
  (s.cl = .returned →
    s.ret = some taskErr ∧ (s.up = .sent ∨ s.up = .chShut) ∧ s.pwShut = true) ∧
  (s.cl ≠ .idle → s.pwShut = true) ∧
  (∀ r, s.ret = some r → s.cl = .returned)

theorem splitSlash_nil : splitSlash [] = [[]] := rfl

theorem splitSlash_cons (c : Char) (s : GoStr) :
    splitSlash (c :: s) =
      (if c = '/' then [] :: splitSlash s
       else (c :: (splitSlash s).headD []) :: (splitSlash s).tail) := rfl

theorem splitSlash_ne_nil (s : GoStr) : splitSlash s ≠ [] := by
  induction s with
  | nil => simp [splitSlash]
  | cons c s ih =>
    rw [splitSlash_cons]
    split <;> simp

theorem splitSlash_slash_cons (s : GoStr) :
    splitSlash ('/' :: s) = [] :: splitSlash s := by
  rw [splitSlash_cons]; simp

theorem splitSlash_cons_ne (c : Char) (s : GoStr) (hc : c ≠ '/') :
    splitSlash (c :: s) =
      (c :: (splitSlash s).headD []) :: (splitSlash s).tail := by
  rw [splitSlash_cons]; simp [hc]

/-- A slash-free string splits to itself. -/
theorem splitSlash_no_slash (s : GoStr) (h : '/' ∉ s) : splitSlash s = [s] := by
  induction s with
  | nil => rfl
  | cons c s ih =>
    have hc : c ≠ '/' := fun hh => h (hh ▸ List.mem_cons_self c s)
    have hs : '/' ∉ s := fun hh => h (List.mem_cons_of_mem _ hh)
    rw [splitSlash_cons_ne c s hc, ih hs]
    rfl

/-- Splitting past a separator after a slash-free chunk. -/
theorem splitSlash_append_slash (x : GoStr) (r : GoStr) (h : '/' ∉ x) :
    splitSlash (x ++ '/' :: r) = x :: splitSlash r := by
  induction x with
  | nil => simpa using splitSlash_slash_cons r
  | cons c x ih =>
    have hc : c ≠ '/' := fun hh => h (hh ▸ List.mem_cons_self c x)
    have hx : '/' ∉ x := fun hh => h (List.mem_cons_of_mem _ hh)
    rw [List.cons_append, splitSlash_cons_ne c _ hc, ih hx]
    rfl

/-- Every piece produced by `splitSlash` is slash-free. -/
theorem splitSlash_pieces_no_slash (s : GoStr) :
    ∀ p ∈ splitSlash s, '/' ∉ p := by
  induction s with
  | nil =>
    intro p hp
    rw [splitSlash_nil] at hp
    rw [List.mem_singleton.mp hp]
    simp
  | cons c s ih =>
    intro p hp
    by_cases hc : c = '/'
    · subst hc
      rw [splitSlash_slash_cons] at hp
      rcases List.mem_cons.mp hp with hp | hp
      · simp [hp]
      · exact ih p hp
    · rw [splitSlash_cons_ne c s hc] at hp
      rcases List.exists_cons_of_ne_nil (splitSlash_ne_nil s) with ⟨h0, t0, ht⟩
      rw [ht] at hp
      simp only [List.headD_cons, List.tail_cons, List.mem_cons] at hp
      rcases hp with hp | hp
      · subst hp
        intro hmem
        rcases List.mem_cons.mp hmem with h | h
        · exact hc h.symm
        · exact ih h0 (ht ▸ List.mem_cons_self h0 t0) h
      · exact ih p (ht ▸ List.mem_cons_of_mem h0 hp)

theorem joinSlash_nil : joinSlash [] = [] := rfl

theorem joinSlash_single (x : GoStr) : joinSlash [x] = x := by
  simp [joinSlash, List.intercalate]

theorem joinSlash_cons_cons (x y : GoStr) (t : List GoStr) :
    joinSlash (x :: y :: t) = x ++ '/' :: joinSlash (y :: t) := by
  simp [joinSlash, List.intercalate, List.intersperse]

/-- `splitSlash` is a left inverse of `joinSlash` on well-formed piece lists. -/
theorem splitSlash_joinSlash (ls : List GoStr) (hne : ls ≠ [])
    (hns : ∀ l ∈ ls, '/' ∉ l) : splitSlash (joinSlash ls) = ls := by
  induction ls with
  | nil => exact absurd rfl hne
  | cons x t ih =>
    cases t with
    | nil => rw [joinSlash_single]; exact splitSlash_no_slash x (hns x (by simp))
    | cons y t' =>
      rw [joinSlash_cons_cons]
      rw [splitSlash_append_slash x _ (hns x (by simp))]
      rw [ih (by simp) (fun l hl => hns l (List.mem_cons_of_mem _ hl))]

/-- `joinSlash` is a left inverse of `splitSlash`. -/
theorem joinSlash_splitSlash (s : GoStr) : joinSlash (splitSlash s) = s := by
  induction s with
  | nil => rfl
  | cons c s ih =>
    by_cases hc : c = '/'
    · subst hc
      rw [splitSlash_slash_cons]
      rcases List.exists_cons_of_ne_nil (splitSlash_ne_nil s) with ⟨h0, t0, ht⟩
      rw [ht] at ih ⊢
      rw [← ih, joinSlash_cons_cons]
      rfl
    · rw [splitSlash_cons_ne c s hc]
      rcases List.exists_cons_of_ne_nil (splitSlash_ne_nil s) with ⟨h0, t0, ht⟩
      rw [ht] at ih ⊢
      simp only [List.headD_cons, List.tail_cons]
      cases t0 with
      | nil => rw [joinSlash_single] at ih ⊢; rw [← ih]
      | cons z t1 =>
        rw [joinSlash_cons_cons] at ih ⊢
        rw [List.cons_append, ih]

/-- Appending a separator and more text after a rendered piece list. -/
theorem splitSlash_joinSlash_append (segs : List GoStr) (m : GoStr)
    (hne : segs ≠ []) (hns : ∀ l ∈ segs, '/' ∉ l) :
    splitSlash (joinSlash segs ++ '/' :: m) = segs ++ splitSlash m := by
  induction segs with
  | nil => exact absurd rfl hne
  | cons x t ih =>
    cases t with
    | nil =>
      rw [joinSlash_single, splitSlash_append_slash x m (hns x (by simp))]
      rfl
    | cons y t' =>
      rw [joinSlash_cons_cons, List.append_assoc, List.cons_append]
      rw [splitSlash_append_slash x _ (hns x (by simp))]
      rw [List.cons_append] at *
      rw [ih (by simp) (fun l hl => hns l (List.mem_cons_of_mem _ hl))]
      rfl

theorem dd_ne_nil : dd ≠ ([] : GoStr) := by simp [dd]

theorem dd_ne_dot : dd ≠ (['.'] : GoStr) := by simp [dd]

theorem slash_not_mem_dd : '/' ∉ dd := by simp [dd]

theorem stackInv_nil (rooted : Bool) : StackInv rooted [] :=
  ⟨by simp, ⟨[], 0, by simp, by simp⟩, by simp⟩

/-- If a `..`-free front is glued to a `..` block and the whole list starts
with `..`, the front must be empty. -/
theorem front_nil_of_head_dd {front : List GoStr} {k : ℕ} {rest : List GoStr}
    (h : front ++ List.replicate k dd = dd :: rest) (hfront : dd ∉ front) :
    front = [] := by
  cases front with
  | nil => rfl
  | cons f0 ft =>
    have : f0 = dd := by
      have := congrArg List.head? h
      simpa using this
    exact absurd (this ▸ List.mem_cons_self f0 ft) hfront

theorem replicate_eq_cons_dd {k : ℕ} {rest : List GoStr}
    (h : List.replicate k dd = dd :: rest) :
    ∃ k', k = k' + 1 ∧ rest = List.replicate k' dd := by
  cases k with
  | zero => simp at h
  | succ k' =>
    rw [List.replicate_succ] at h
    exact ⟨k', rfl, ((List.cons.injEq _ _ _ _).mp h).2.symm⟩

theorem cleanStep_inv {rooted : Bool} {acc : List GoStr} (c : GoStr)
    (hc : '/' ∉ c) (h : StackInv rooted acc) :
    StackInv rooted (cleanStep rooted acc c) := by
  rcases h with ⟨helems, ⟨front, k, hacc, hfront⟩, hroot⟩
  unfold cleanStep
  by_cases h1 : c = [] ∨ c = ['.']
  · simp only [h1, if_true]
    exact ⟨helems, ⟨front, k, hacc, hfront⟩, hroot⟩
  · simp only [h1, if_false]
    by_cases h2 : c = dd
    · simp only [h2, if_true]
      cases acc with
      | nil =>
        cases rooted with
        | true => exact ⟨by simp, ⟨[], 0, by simp, by simp⟩, by simp⟩
        | false =>
          refine ⟨?_, ⟨[], 1, by simp, by simp⟩, by simp⟩
          intro p hp
          rw [List.mem_singleton.mp hp]
          exact ⟨dd_ne_nil, dd_ne_dot, slash_not_mem_dd⟩
      | cons a rest =>
        by_cases h3 : a = dd
        · subst h3
          show StackInv rooted (if dd = dd then dd :: dd :: rest else rest)
          rw [if_pos rfl]
          have hf0 : front = [] := front_nil_of_head_dd hacc.symm hfront
          rw [hf0, List.nil_append] at hacc
          rcases replicate_eq_cons_dd hacc.symm with ⟨k', hk, hrest⟩
          refine ⟨?_, ?_, ?_⟩
          · intro p hp
            rcases List.mem_cons.mp hp with hp | hp
            · rw [hp]; exact ⟨dd_ne_nil, dd_ne_dot, slash_not_mem_dd⟩
            · exact helems p hp
          · refine ⟨[], k' + 2, ?_, by simp⟩
            rw [List.nil_append, hrest]
            rw [List.replicate_succ, List.replicate_succ]
          · intro hr
            exact absurd (List.mem_cons_self dd rest) (hroot hr)
        · show StackInv rooted (if a = dd then dd :: a :: rest else rest)
          rw [if_neg h3]
          refine ⟨?_, ?_, ?_⟩
          · intro p hp
            exact helems p (List.mem_cons_of_mem a hp)
          · cases hfe : front with
            | nil =>
              rw [hfe, List.nil_append] at hacc
              cases k with
              | zero => simp at hacc
              | succ k' =>
                rw [List.replicate_succ] at hacc
                exact absurd ((List.cons.injEq _ _ _ _).mp hacc).1 h3
            | cons f0 ft =>
              rw [hfe] at hacc
              have h4 := (List.cons.injEq _ _ _ _).mp hacc
              refine ⟨ft, k, h4.2, ?_⟩
              intro hm
              exact hfront (hfe ▸ List.mem_cons_of_mem f0 hm)
          · intro hr
            intro hmem
            exact hroot hr (List.mem_cons_of_mem a hmem)
    · simp only [h2, if_false]
      refine ⟨?_, ?_, ?_⟩
      · intro p hp
        rcases List.mem_cons.mp hp with hp | hp
        · rw [hp]
          push_neg at h1
          exact ⟨h1.1, h1.2, hc⟩
        · exact helems p hp
      · exact ⟨c :: front, k, by rw [hacc]; rfl, by
          intro hm
          rcases List.mem_cons.mp hm with hm | hm
          · exact h2 hm.symm
          · exact hfront hm⟩
      · intro hr
        intro hmem
        rcases List.mem_cons.mp hmem with hm | hm
        · exact h2 hm.symm
        · exact hroot hr hm

theorem foldl_cleanStep_inv (rooted : Bool) (cs : List GoStr)
    (hcs : ∀ c ∈ cs, '/' ∉ c) {acc : List GoStr} (h : StackInv rooted acc) :
    StackInv rooted (cs.foldl (cleanStep rooted) acc) := by
  induction cs generalizing acc with
  | nil => exact h
  | cons c cs ih =>
    exact ih (fun x hx => hcs x (List.mem_cons_of_mem _ hx))
      (cleanStep_inv c (hcs c (by simp)) h)

/-- The output of `cleanSegs` is well-formed. -/
theorem cleanSegs_ok (rooted : Bool) (cs : List GoStr)
    (hcs : ∀ c ∈ cs, '/' ∉ c) : SegsOK rooted (cleanSegs rooted cs) := by
  have h := foldl_cleanStep_inv rooted cs hcs (stackInv_nil rooted)
  rcases h with ⟨helems, ⟨front, k, hacc, hfront⟩, hroot⟩
  unfold cleanSegs
  refine ⟨?_, ?_, ?_⟩
  · intro p hp
    exact helems p (List.mem_reverse.mp hp)
  · rw [hacc]
    rw [List.reverse_append, List.reverse_replicate]
    rw [List.dropWhile_append]
    have h1 : List.dropWhile (· = dd) (List.replicate k dd) = [] := by
      rw [List.dropWhile_eq_nil_iff]
      intro x hx
      simp [List.eq_of_mem_replicate hx]
    rw [h1]
    simp only [List.isEmpty_nil, if_true]
    intro hm
    have hsub : List.dropWhile (· = dd) front.reverse <:+ front.reverse :=
      ⟨List.takeWhile (· = dd) front.reverse, List.takeWhile_append_dropWhile _ _⟩
    exact hfront (List.mem_reverse.mp (hsub.subset hm))
  · intro hr
    intro hm
    exact hroot hr (List.mem_reverse.mp hm)

theorem clean_eq (p : GoStr) :
    clean p = renderPath (hasPref p ['/']) (cleanSegs (hasPref p ['/']) (splitSlash p)) := rfl

theorem cleanStep_skip (rooted : Bool) (acc : List GoStr) (c : GoStr)
    (h : c = [] ∨ c = ['.']) : cleanStep rooted acc c = acc := by
  unfold cleanStep; rw [if_pos h]

theorem cleanStep_push (rooted : Bool) (acc : List GoStr) (c : GoStr)
    (h1 : ¬(c = [] ∨ c = ['.'])) (h2 : c ≠ dd) :
    cleanStep rooted acc c = c :: acc := by
  unfold cleanStep; rw [if_neg h1, if_neg h2]

/-- Folding elements that are neither empty, `.` nor `..` just pushes them. -/
theorem foldl_cleanStep_plain (rooted : Bool) (rest : List GoStr)
    (h : ∀ p ∈ rest, ¬(p = [] ∨ p = ['.']) ∧ p ≠ dd) (acc : List GoStr) :
    rest.foldl (cleanStep rooted) acc = rest.reverse ++ acc := by
  induction rest generalizing acc with
  | nil => simp
  | cons r rs ih =>
    rw [List.foldl_cons, cleanStep_push _ _ _ (h r (by simp)).1 (h r (by simp)).2]
    rw [ih (fun p hp => h p (List.mem_cons_of_mem _ hp))]
    simp

/-- In a relative path, `..` elements pile up on a `..`-only stack. -/
theorem foldl_cleanStep_dd (k j : ℕ) :
    (List.replicate k dd).foldl (cleanStep false) (List.replicate j dd) =
      List.replicate (j + k) dd := by
  induction k generalizing j with
  | zero => simp
  | succ k' ih =>
    rw [List.replicate_succ, List.foldl_cons]
    have hstep : cleanStep false (List.replicate j dd) dd = List.replicate (j + 1) dd := by
      unfold cleanStep
      rw [if_neg (by simp [dd]), if_pos rfl]
      cases j with
      | zero => simp
      | succ j' =>
        rw [List.replicate_succ]
        show (if dd = dd then dd :: dd :: List.replicate j' dd else List.replicate j' dd) =
          List.replicate (j' + 1 + 1) dd
        rw [if_pos rfl]
        rw [List.replicate_succ, List.replicate_succ]
    rw [hstep, ih (j + 1)]
    congr 1
    omega

/-- A well-formed element list splits into leading `..`s and a `..`-free rest. -/
theorem segs_decomp (rooted : Bool) (segs : List GoStr) (h : SegsOK rooted segs) :
    ∃ k rest, segs = List.replicate k dd ++ rest ∧ dd ∉ rest ∧
      (rooted = true → k = 0) := by
  have htw : segs.takeWhile (· = dd) =
      List.replicate (segs.takeWhile (· = dd)).length dd := by
    rw [List.eq_replicate_iff]
    refine ⟨rfl, fun b hb => ?_⟩
    have hbd := List.mem_takeWhile_imp hb
    simpa using hbd
  refine ⟨(segs.takeWhile (· = dd)).length, segs.dropWhile (· = dd), ?_, h.ddLead, ?_⟩
  · rw [← htw, List.takeWhile_append_dropWhile]
  · intro hr
    have hnodd := h.noDdOfRooted hr
    cases htwc : segs.takeWhile (· = dd) with
    | nil => rfl
    | cons x xs =>
      exfalso
      have hmtw : x ∈ segs.takeWhile (· = dd) := htwc ▸ List.mem_cons_self x xs
      have hxd := List.mem_takeWhile_imp hmtw
      have hx : x = dd := by simpa using hxd
      have hxseg : x ∈ segs := (List.takeWhile_sublist _).subset hmtw
      exact hnodd (hx ▸ hxseg)

/-- A well-formed element list is a fixed point of the cleaning fold. -/
theorem foldl_cleanStep_self (rooted : Bool) (segs : List GoStr)
    (h : SegsOK rooted segs) :
    segs.foldl (cleanStep rooted) [] = segs.reverse := by
  rcases segs_decomp rooted segs h with ⟨k, rest, hseg, hrest, hk⟩
  have hrestElems : ∀ p ∈ rest, ¬(p = [] ∨ p = ['.']) ∧ p ≠ dd := by
    intro p hp
    have hpseg : p ∈ segs := by rw [hseg]; exact List.mem_append_right _ hp
    have he := h.elems p hpseg
    exact ⟨by push_neg; exact ⟨he.1, he.2.1⟩, fun hpd => hrest (hpd ▸ hp)⟩
  rw [hseg, List.foldl_append]
  have hddfold : (List.replicate k dd).foldl (cleanStep rooted) [] =
      List.replicate k dd := by
    cases rooted with
    | false => simpa using foldl_cleanStep_dd k 0
    | true => rw [hk rfl]; simp
  rw [hddfold, foldl_cleanStep_plain rooted rest hrestElems]
  rw [List.reverse_append, List.reverse_replicate]

/-- `cleanSegs` is the identity on well-formed element lists. -/
theorem cleanSegs_fix (rooted : Bool) (segs : List GoStr) (h : SegsOK rooted segs) :
    cleanSegs rooted segs = segs := by
  unfold cleanSegs
  rw [foldl_cleanStep_self rooted segs h, List.reverse_reverse]

theorem joinSlash_ne_nil (s0 : GoStr) (t : List GoStr) (h : s0 ≠ []) :
    joinSlash (s0 :: t) ≠ [] := by
  cases t with
  | nil => rw [joinSlash_single]; exact h
  | cons y t' =>
    rw [joinSlash_cons_cons]
    intro hc
    rcases List.append_eq_nil.mp hc with ⟨_, h2⟩
    exact List.cons_ne_nil _ _ h2

theorem head?_joinSlash (s0 : GoStr) (t : List GoStr) (h : s0 ≠ []) :
    (joinSlash (s0 :: t)).head? = s0.head? := by
  cases t with
  | nil => rw [joinSlash_single]
  | cons y t' =>
    rw [joinSlash_cons_cons]
    cases s0 with
    | nil => exact absurd rfl h
    | cons c s0' => rfl

theorem hasPref_single (c : Char) (s : GoStr) :
    hasPref s [c] = true ↔ s.head? = some c := by
  unfold hasPref
  rw [List.isPrefixOf_iff_prefix]
  constructor
  · rintro ⟨t, ht⟩
    rw [← ht]
    rfl
  · intro h
    cases s with
    | nil => simp at h
    | cons x t =>
      simp only [List.head?_cons, Option.some.injEq] at h
      exact ⟨t, by rw [h]; rfl⟩

/-- Parsing back a rendered well-formed element list and cleaning recovers it. -/
theorem cleanSegs_split_render (rooted : Bool) (segs : List GoStr)
    (h : SegsOK rooted segs) :
    cleanSegs rooted (splitSlash (renderPath rooted segs)) = segs := by
  have hns : ∀ l ∈ segs, '/' ∉ l := fun l hl => (h.elems l hl).2.2
  cases rooted with
  | true =>
    by_cases hsegs : segs = []
    · subst hsegs
      show cleanSegs true (splitSlash ('/' :: joinSlash [])) = []
      rfl
    · show cleanSegs true (splitSlash ('/' :: joinSlash segs)) = segs
      rw [splitSlash_slash_cons]
      rw [splitSlash_joinSlash segs hsegs hns]
      unfold cleanSegs
      rw [List.foldl_cons, cleanStep_skip true [] [] (Or.inl rfl)]
      rw [foldl_cleanStep_self true segs h, List.reverse_reverse]
  | false =>
    by_cases hsegs : segs = []
    · subst hsegs
      show cleanSegs false (splitSlash (if joinSlash [] = [] then ['.'] else joinSlash [])) = []
      rfl
    · rcases List.exists_cons_of_ne_nil hsegs with ⟨s0, t, hsc⟩
      have hs0 : s0 ≠ [] := (h.elems s0 (hsc ▸ List.mem_cons_self s0 t)).1
      have hout : joinSlash segs ≠ [] := hsc ▸ joinSlash_ne_nil s0 t hs0
      show cleanSegs false (splitSlash (if joinSlash segs = [] then ['.'] else joinSlash segs)) = segs
      rw [if_neg hout]
      rw [splitSlash_joinSlash segs hsegs hns]
      exact cleanSegs_fix false segs h

/-- Cleaning preserves whether a path is rooted. -/
theorem hasPref_clean_slash (p : GoStr) :
    hasPref (clean p) ['/'] = hasPref p ['/'] := by
  rw [clean_eq]
  have hok := cleanSegs_ok (hasPref p ['/']) (splitSlash p) (splitSlash_pieces_no_slash p)
  cases hr : hasPref p ['/'] with
  | true =>
    show hasPref ('/' :: joinSlash _) ['/'] = true
    rw [hasPref_single]
    rfl
  | false =>
    cases hsc : cleanSegs false (splitSlash p) with
    | nil =>
      show hasPref (if joinSlash [] = [] then ['.'] else joinSlash []) ['/'] = false
      decide
    | cons s0 t =>
      have hok' : SegsOK false (s0 :: t) := hsc ▸ (hr ▸ hok)
      have hs0 : s0 ≠ [] := (hok'.elems s0 (List.mem_cons_self s0 t)).1
      have hout : joinSlash (s0 :: t) ≠ [] := joinSlash_ne_nil s0 t hs0
      show hasPref (if joinSlash (s0 :: t) = [] then ['.'] else joinSlash (s0 :: t)) ['/'] = false
      rw [if_neg hout]
      rw [Bool.eq_false_iff]
      intro hcon
      have hhd := (hasPref_single '/' _).mp hcon
      rw [head?_joinSlash s0 t hs0] at hhd
      have : '/' ∈ s0 := by
        cases s0 with
        | nil => exact absurd rfl hs0
        | cons c s0' =>
          simp only [List.head?_cons, Option.some.injEq] at hhd
          rw [hhd]
          exact List.mem_cons_self '/' s0'
      exact (hok'.elems s0 (List.mem_cons_self s0 t)).2.2 this

/-- Go's path cleaning is idempotent. -/
theorem clean_idem (p : GoStr) : clean (clean p) = clean p := by
  conv_lhs => rw [clean_eq (clean p)]
  rw [hasPref_clean_slash]
  conv_lhs => rw [clean_eq p]
  rw [cleanSegs_split_render _ _
    (cleanSegs_ok (hasPref p ['/']) (splitSlash p) (splitSlash_pieces_no_slash p))]
  rw [clean_eq]

theorem clean_ne_nil (p : GoStr) : clean p ≠ [] := by
  rw [clean_eq]
  cases hr : hasPref p ['/'] with
  | true => exact List.cons_ne_nil _ _
  | false =>
    show (if joinSlash _ = [] then ['.'] else joinSlash _) ≠ []
    split
    · exact List.cons_ne_nil _ _
    · assumption

/-!
## Structural facts about `rel` on cleaned inputs
-/

theorem commonPrefixLen_cons (x y : GoStr) (xs ys : List GoStr) :
    commonPrefixLen (x :: xs) (y :: ys) =
      if x = y then commonPrefixLen xs ys + 1 else 0 := rfl

theorem commonPrefixLen_nil_left (b : List GoStr) : commonPrefixLen [] b = 0 := by
  cases b <;> rfl

theorem commonPrefixLen_nil_right (a : List GoStr) : commonPrefixLen a [] = 0 := by
  cases a <;> rfl

theorem commonPrefixLen_append (p a b : List GoStr) :
    commonPrefixLen (p ++ a) (p ++ b) = p.length + commonPrefixLen a b := by
  induction p with
  | nil => simp
  | cons x t ih =>
    simp only [List.cons_append]
    rw [commonPrefixLen_cons, if_pos rfl, ih]
    simp only [List.length_cons]
    omega

theorem take_commonPrefixLen_eq : ∀ (a b : List GoStr),
    a.take (commonPrefixLen a b) = b.take (commonPrefixLen a b)
  | [], b => by rw [commonPrefixLen_nil_left]; simp
  | a :: as, [] => by rw [commonPrefixLen_nil_right]; simp
  | x :: xs, y :: ys => by
    rw [commonPrefixLen_cons]
    by_cases h : x = y
    · rw [if_pos h]
      simp only [List.take_succ_cons, h]
      rw [take_commonPrefixLen_eq xs ys]
    · rw [if_neg h]
      simp

theorem head?_drop_mem {l : List GoStr} {k : ℕ} {x : GoStr}
    (h : (l.drop k).head? = some x) : x ∈ l := by
  cases hd : l.drop k with
  | nil => rw [hd] at h; simp at h
  | cons y t =>
    rw [hd] at h
    simp only [List.head?_cons, Option.some.injEq] at h
    exact (List.drop_sublist k l).subset (hd ▸ (h ▸ List.mem_cons_self y t))

theorem head?_append_left {x y : GoStr} (h : x ≠ []) :
    (x ++ y).head? = x.head? := by
  cases x with
  | nil => exact absurd rfl h
  | cons c t => rfl

theorem hasPref_slash_append {x y : GoStr} (h : x ≠ []) :
    hasPref (x ++ y) ['/'] = hasPref x ['/'] := by
  rcases hx : hasPref x ['/'] with _ | _
  · rw [Bool.eq_false_iff]
    intro hc
    have := (hasPref_single _ _).mp hc
    rw [head?_append_left h] at this
    exact absurd ((hasPref_single _ _).mpr this) (by rw [hx]; simp)
  · exact (hasPref_single _ _).mpr ((head?_append_left h).symm ▸ (hasPref_single _ _).mp hx)

/-- Cleaning the concatenation `base ++ "/" ++ member` preserves rootedness of
the base. -/
theorem hasPref_clean_append (b m : GoStr) (hb : b ≠ []) :
    hasPref (clean (b ++ '/' :: m)) ['/'] = hasPref b ['/'] := by
  rw [hasPref_clean_slash, hasPref_slash_append hb]

theorem segsOf_ok (p : GoStr) : SegsOK (hasPref p ['/']) (segsOf p) :=
  cleanSegs_ok _ _ (splitSlash_pieces_no_slash p)

/-- For a rooted path, `Rel`'s element walk sees a leading empty element
followed by the cleaned elements. -/
theorem relElemsOf_clean_rooted (p : GoStr) (h : hasPref p ['/'] = true) :
    relElemsOf (clean p) = [] :: segsOf p := by
  have hok := segsOf_ok p
  rw [h] at hok
  have hsegsOf : cleanSegs true (splitSlash p) = segsOf p := by rw [segsOf, h]
  rw [clean_eq, h, hsegsOf]
  show relElemsOf ('/' :: joinSlash (segsOf p)) = [] :: segsOf p
  by_cases hsegs : segsOf p = []
  · rw [hsegs]
    rfl
  · rcases List.exists_cons_of_ne_nil hsegs with ⟨s0, t, hsc⟩
    have hs0 : s0 ≠ [] := (hok.elems s0 (hsc ▸ List.mem_cons_self s0 t)).1
    have hjoin : joinSlash (segsOf p) ≠ [] := hsc ▸ joinSlash_ne_nil s0 t hs0
    unfold relElemsOf
    rw [if_neg (List.cons_ne_nil _ _)]
    rw [if_neg (by intro hcon; exact hjoin (by simpa using congrArg List.tail hcon))]
    rw [splitSlash_slash_cons]
    rw [splitSlash_joinSlash _ hsegs (fun l hl => (hok.elems l hl).2.2)]

/-- For a nonempty well-formed element list, the rendered string's `Rel`
element walk recovers exactly the elements. -/
theorem relElemsOf_joinSlash (segs : List GoStr)
    (helems : ∀ p ∈ segs, p ≠ [] ∧ p ≠ ['.'] ∧ '/' ∉ p) (hne : segs ≠ []) :
    relElemsOf (joinSlash segs) = segs := by
  rcases List.exists_cons_of_ne_nil hne with ⟨s0, t, hsc⟩
  have hs0 : s0 ≠ [] := (helems s0 (hsc ▸ List.mem_cons_self s0 t)).1
  have hjoin : joinSlash segs ≠ [] := hsc ▸ joinSlash_ne_nil s0 t hs0
  unfold relElemsOf
  rw [if_neg hjoin]
  have hnotslash : joinSlash segs ≠ ['/'] := by
    rw [hsc]
    cases t with
    | nil =>
      rw [joinSlash_single]
      intro hcon
      exact (helems s0 (hsc ▸ List.mem_cons_self s0 _)).2.2
        (hcon ▸ List.mem_cons_self '/' [])
    | cons y t' =>
      rw [joinSlash_cons_cons]
      intro hcon
      rcases List.exists_cons_of_ne_nil hs0 with ⟨c0, s0', hs0c⟩
      rw [hs0c] at hcon
      have hlen := congrArg List.length hcon
      simp at hlen
  rw [if_neg hnotslash]
  exact splitSlash_joinSlash _ hne (fun l hl => (helems l hl).2.2)

/-- For a relative path other than `.`, the cleaned string renders the cleaned
elements directly, they are nonempty, and `Rel`'s element walk sees exactly
them. -/
theorem relElemsOf_clean_relative (p : GoStr) (h : hasPref p ['/'] = false)
    (hdot : clean p ≠ ['.']) :
    relElemsOf (clean p) = segsOf p ∧ segsOf p ≠ [] ∧
      clean p = joinSlash (segsOf p) := by
  have hok := segsOf_ok p
  rw [h] at hok
  have hsegsOf : cleanSegs false (splitSlash p) = segsOf p := by rw [segsOf, h]
  have hclean : clean p = renderPath false (segsOf p) := by
    rw [clean_eq, h, hsegsOf]
  by_cases hsegs : segsOf p = []
  · exfalso
    apply hdot
    rw [hclean, hsegs]
    rfl
  · rcases List.exists_cons_of_ne_nil hsegs with ⟨s0, t, hsc⟩
    have hs0 : s0 ≠ [] := (hok.elems s0 (hsc ▸ List.mem_cons_self s0 t)).1
    have hjoin : joinSlash (segsOf p) ≠ [] := hsc ▸ joinSlash_ne_nil s0 t hs0
    have hrender : clean p = joinSlash (segsOf p) := by
      rw [hclean]
      show (if joinSlash (segsOf p) = [] then ['.'] else joinSlash (segsOf p)) = _
      rw [if_neg hjoin]
    refine ⟨?_, hsegs, hrender⟩
    rw [hrender]
    exact relElemsOf_joinSlash _ hok.elems hsegs

theorem cleanStep_dd_cons_dd (rooted : Bool) (rest : List GoStr) :
    cleanStep rooted (dd :: rest) dd = dd :: dd :: rest := by
  unfold cleanStep
  rw [if_neg (by simp [dd]), if_pos rfl]
  show (if dd = dd then dd :: dd :: rest else rest) = dd :: dd :: rest
  rw [if_pos rfl]

theorem cleanStep_dd_cons_ne (rooted : Bool) (a : GoStr) (rest : List GoStr)
    (h : a ≠ dd) : cleanStep rooted (a :: rest) dd = rest := by
  unfold cleanStep
  rw [if_neg (by simp [dd]), if_pos rfl]
  show (if a = dd then dd :: a :: rest else rest) = rest
  rw [if_neg h]

/-- One cleaning step preserves a `..`-block suffix of the stack. -/
theorem cleanStep_dd_suffix {rooted : Bool} {acc : List GoStr} {k : ℕ}
    (c : GoStr) (h : ∃ f, acc = f ++ List.replicate k dd) :
    ∃ f, cleanStep rooted acc c = f ++ List.replicate k dd := by
  rcases h with ⟨f, hacc⟩
  cases k with
  | zero => exact ⟨cleanStep rooted acc c, by simp⟩
  | succ k' =>
    by_cases h1 : c = [] ∨ c = ['.']
    · rw [cleanStep_skip rooted acc c h1]; exact ⟨f, hacc⟩
    · by_cases h2 : c = dd
      · subst h2
        cases f with
        | nil =>
          rw [List.nil_append] at hacc
          refine ⟨[dd], ?_⟩
          rw [hacc, List.replicate_succ, cleanStep_dd_cons_dd]
          rfl
        | cons f0 ft =>
          rw [List.cons_append] at hacc
          by_cases h3 : f0 = dd
          · subst h3
            refine ⟨dd :: dd :: ft, ?_⟩
            rw [hacc, cleanStep_dd_cons_dd]
            rfl
          · refine ⟨ft, ?_⟩
            rw [hacc, cleanStep_dd_cons_ne rooted f0 _ h3]
      · rw [cleanStep_push rooted acc c h1 h2]
        exact ⟨c :: f, by rw [hacc]; rfl⟩

theorem foldl_cleanStep_dd_suffix (rooted : Bool) (ms : List GoStr) (k : ℕ)
    {acc : List GoStr} (h : ∃ f, acc = f ++ List.replicate k dd) :
    ∃ f, ms.foldl (cleanStep rooted) acc = f ++ List.replicate k dd := by
  induction ms generalizing acc with
  | nil => exact h
  | cons c ms ih => exact ih (cleanStep_dd_suffix c h)

/-- The element walk succeeds whenever the base elements contain no `..`. -/
theorem relWalk_isSome_of_no_dd (be te : List GoStr) (h : dd ∉ be) :
    (relWalk be te).isSome = true := by
  unfold relWalk
  have hdd : ¬ ((be.drop (commonPrefixLen be te)).head? = some dd) := by
    intro hc
    exact h (head?_drop_mem hc)
  rw [if_neg hdd]
  split <;> rfl

/-- The element walk succeeds when base and target share the base's whole
leading `..` block and the base has no other `..`. -/
theorem relWalk_isSome_of_shape (k : ℕ) (restB te2 : List GoStr)
    (hrb : dd ∉ restB) :
    (relWalk (List.replicate k dd ++ restB) (List.replicate k dd ++ te2)).isSome = true := by
  unfold relWalk
  rw [commonPrefixLen_append]
  rw [@List.drop_append _ (List.replicate k dd) restB]
  rw [@List.drop_append _ (List.replicate k dd) te2]
  have hdd : ¬ ((restB.drop (commonPrefixLen restB te2)).head? = some dd) := by
    intro hc
    exact hrb (head?_drop_mem hc)
  rw [if_neg hdd]
  split <;> rfl

/-- When `Rel` on cleaned inputs yields a result that is neither `..` nor
starts with `../`, the base's element list is a prefix of the target's. -/
theorem relCore_some_contained {x y r : GoStr}
    (h : relCore x y = some r) (h1 : r ≠ dd)
    (h2 : hasPref r ('.' :: '.' :: '/' :: []) = false) :
    relElemsOf (dotNorm x) <+: relElemsOf y := by
  unfold relCore at h
  by_cases heq : y = x
  · subst heq
    unfold dotNorm
    split
    · show relElemsOf [] <+: _
      exact List.nil_prefix
    · exact ⟨[], by simp⟩
  · rw [if_neg heq] at h
    by_cases hsl : (hasPref (dotNorm x) ['/']) ≠ (hasPref y ['/'])
    · rw [if_pos hsl] at h
      simp at h
    · rw [if_neg hsl] at h
      unfold relWalk at h
      by_cases hdd : ((relElemsOf (dotNorm x)).drop
          (commonPrefixLen (relElemsOf (dotNorm x)) (relElemsOf y))).head? = some dd
      · rw [if_pos hdd] at h
        simp at h
      · rw [if_neg hdd] at h
        by_cases hrb : (relElemsOf (dotNorm x)).drop
            (commonPrefixLen (relElemsOf (dotNorm x)) (relElemsOf y)) ≠ []
        · exfalso
          rw [if_pos hrb] at h
          rcases List.exists_cons_of_ne_nil hrb with ⟨d0, dt, hdcons⟩
          rw [hdcons] at h
          simp only [List.length_cons, Option.some.injEq] at h
          rw [List.replicate_succ, List.cons_append] at h
          cases hrest : List.replicate dt.length dd ++ (relElemsOf y).drop
              (commonPrefixLen (relElemsOf (dotNorm x)) (relElemsOf y)) with
          | nil =>
            rw [hrest, joinSlash_single] at h
            exact h1 h.symm
          | cons z zs =>
            rw [hrest, joinSlash_cons_cons] at h
            have : hasPref r ('.' :: '.' :: '/' :: []) = true := by
              rw [← h]
              unfold hasPref
              rw [List.isPrefixOf_iff_prefix]
              exact ⟨joinSlash (z :: zs), rfl⟩
            rw [this] at h2
            cases h2
        · rw [if_neg hrb] at h
          push_neg at hrb
          have hlen : (relElemsOf (dotNorm x)).length ≤
              commonPrefixLen (relElemsOf (dotNorm x)) (relElemsOf y) := by
            rw [← List.drop_eq_nil_iff]
            exact hrb
          refine ⟨(relElemsOf y).drop
            (commonPrefixLen (relElemsOf (dotNorm x)) (relElemsOf y)), ?_⟩
          have htake : relElemsOf (dotNorm x) = (relElemsOf y).take
              (commonPrefixLen (relElemsOf (dotNorm x)) (relElemsOf y)) :=
            (List.take_of_length_le hlen).symm.trans (take_commonPrefixLen_eq _ _)
          nth_rewrite 1 [htake]
          exact List.take_append_drop _ _

theorem joinPath_clean_left_nil (b : GoStr) (hb : b ≠ []) :
    joinPath b [] = clean b := by
  unfold joinPath
  rw [if_neg (by simp [hb]), if_neg hb, if_pos rfl]

theorem joinPath_ne_ne (b m : GoStr) (hb : b ≠ []) (hm : m ≠ []) :
    joinPath b m = clean (b ++ '/' :: m) := by
  unfold joinPath
  rw [if_neg (by simp [hb]), if_neg hb, if_neg hm]

/-- The candidate built by `safeJoin` when the trimmed member is empty. -/
theorem safeJoinCandidate_nil (base member : GoStr)
    (hm : trimPref member ['/'] = []) :
    safeJoinCandidate base member = clean base := by
  unfold safeJoinCandidate
  rw [hm, joinPath_clean_left_nil _ (clean_ne_nil base), clean_idem, clean_idem]

/-- The candidate built by `safeJoin` when the trimmed member is nonempty. -/
theorem safeJoinCandidate_cat (base member : GoStr)
    (hm : trimPref member ['/'] ≠ []) :
    safeJoinCandidate base member = clean (clean base ++ '/' :: trimPref member ['/']) := by
  unfold safeJoinCandidate
  rw [joinPath_ne_ne _ _ (clean_ne_nil base) hm, clean_idem]

/-- `filepath.Rel` never fails on the base and candidate that `safeJoin`
hands to it. -/
theorem rel_safeJoin_isSome (base member : GoStr) :
    (rel (clean base) (safeJoinCandidate base member)).isSome = true := by
  have hb : clean (clean base) = clean base := clean_idem base
  have hc : clean (safeJoinCandidate base member) = safeJoinCandidate base member := by
    unfold safeJoinCandidate
    exact clean_idem _
  unfold rel
  rw [hb, hc]
  unfold relCore
  by_cases heq : safeJoinCandidate base member = clean base
  · rw [if_pos heq]
    rfl
  · rw [if_neg heq]
    have hm : trimPref member ['/'] ≠ [] := by
      intro h0
      exact heq (safeJoinCandidate_nil base member h0)
    have hcand : safeJoinCandidate base member =
        clean (clean base ++ '/' :: trimPref member ['/']) :=
      safeJoinCandidate_cat base member hm
    have h1 : hasPref (safeJoinCandidate base member) ['/'] =
        hasPref (clean base) ['/'] := by
      rw [hcand, hasPref_clean_slash, hasPref_slash_append (clean_ne_nil base)]
    have h2 : hasPref (dotNorm (clean base)) ['/'] = hasPref (clean base) ['/'] := by
      unfold dotNorm
      by_cases hbdot : clean base = ['.']
      · rw [if_pos hbdot, hbdot]
        rfl
      · rw [if_neg hbdot]
    rw [if_neg (not_ne_iff.mpr (h2.trans h1.symm))]
    by_cases hbdot : clean base = ['.']
    · unfold dotNorm
      rw [if_pos hbdot]
      exact relWalk_isSome_of_no_dd _ _ (by show dd ∉ relElemsOf []; simp [relElemsOf])
    · unfold dotNorm
      rw [if_neg hbdot]
      cases hroot : hasPref (clean base) ['/'] with
      | true =>
        have hrootbase : hasPref base ['/'] = true := by
          rw [← hasPref_clean_slash]; exact hroot
        rw [relElemsOf_clean_rooted base hrootbase]
        apply relWalk_isSome_of_no_dd
        intro hmem
        rcases List.mem_cons.mp hmem with hmem | hmem
        · exact dd_ne_nil hmem
        · have hok := segsOf_ok base
          rw [hrootbase] at hok
          exact hok.noDdOfRooted rfl hmem
      | false =>
        have hrootbase : hasPref base ['/'] = false := by
          rw [← hasPref_clean_slash]; exact hroot
        obtain ⟨hbe, hsne, hrender⟩ := relElemsOf_clean_relative base hrootbase hbdot
        have hokB : SegsOK false (segsOf base) := by
          have := segsOf_ok base
          rwa [hrootbase] at this
        obtain ⟨kB, restB, hdecomp, hrestB, -⟩ := segs_decomp false (segsOf base) hokB
        have hsplit : splitSlash (clean base ++ '/' :: trimPref member ['/']) =
            segsOf base ++ splitSlash (trimPref member ['/']) := by
          conv_lhs => rw [hrender]
          exact splitSlash_joinSlash_append _ _ hsne (fun l hl => (hokB.elems l hl).2.2)
        have hsuffix : ∃ f, (splitSlash (clean base ++ '/' :: trimPref member ['/'])).foldl
            (cleanStep false) [] = f ++ List.replicate kB dd := by
          rw [hsplit, List.foldl_append, foldl_cleanStep_self false _ hokB]
          apply foldl_cleanStep_dd_suffix
          refine ⟨restB.reverse, ?_⟩
          rw [hdecomp, List.reverse_append, List.reverse_replicate]
        obtain ⟨f, hf⟩ := hsuffix
        have hcat_root : hasPref (clean base ++ '/' :: trimPref member ['/']) ['/'] = false := by
          rw [hasPref_slash_append (clean_ne_nil base)]
          exact hroot
        have hsegsT_eq : cleanSegs false (splitSlash (clean base ++ '/' :: trimPref member ['/'])) =
            List.replicate kB dd ++ f.reverse := by
          unfold cleanSegs
          rw [hf, List.reverse_append, List.reverse_replicate]
        have hokT : SegsOK false (cleanSegs false (splitSlash (clean base ++ '/' :: trimPref member ['/']))) := by
          have := cleanSegs_ok (hasPref (clean base ++ '/' :: trimPref member ['/']) ['/'])
            (splitSlash (clean base ++ '/' :: trimPref member ['/']))
            (splitSlash_pieces_no_slash _)
          rwa [hcat_root] at this
        rcases Nat.eq_zero_or_pos kB with hk0 | hkpos
        · rw [hbe]
          apply relWalk_isSome_of_no_dd
          rw [hdecomp, hk0]
          simpa using hrestB
        · have hTne : cleanSegs false (splitSlash (clean base ++ '/' :: trimPref member ['/'])) ≠ [] := by
            rw [hsegsT_eq]
            intro hcon
            have := congrArg List.length hcon
            simp at this
            omega
          have hcandT : safeJoinCandidate base member =
              renderPath false (cleanSegs false (splitSlash (clean base ++ '/' :: trimPref member ['/']))) := by
            rw [hcand, clean_eq, hcat_root]
          have hcandJ : safeJoinCandidate base member =
              joinSlash (cleanSegs false (splitSlash (clean base ++ '/' :: trimPref member ['/']))) := by
            rw [hcandT]
            rcases List.exists_cons_of_ne_nil hTne with ⟨s0, t, hTc⟩
            have hs0 : s0 ≠ [] := (hokT.elems s0 (hTc ▸ List.mem_cons_self s0 t)).1
            show (if joinSlash _ = [] then ['.'] else joinSlash _) = _
            rw [if_neg (hTc ▸ joinSlash_ne_nil s0 t hs0)]
          have hte : relElemsOf (safeJoinCandidate base member) =
              cleanSegs false (splitSlash (clean base ++ '/' :: trimPref member ['/'])) := by
            rw [hcandJ]
            exact relElemsOf_joinSlash _ hokT.elems hTne
          rw [hbe, hte, hdecomp, hsegsT_eq]
          exact relWalk_isSome_of_shape kB restB f.reverse hrestB

/-- `safeJoin`'s acceptance check, relocated through the shared escape test. -/
theorem safeJoin_eq_escapes (base member : GoStr) :
    safeJoin base member = none ↔
      escapes (clean base) (safeJoinCandidate base member) = true := by
  show (match rel (clean base) (clean (joinPath (clean base) (trimPref member ['/']))) with
    | none => none
    | some r =>
      if r = dd || hasPref r ('.' :: '.' :: '/' :: []) then none
      else some (clean (joinPath (clean base) (trimPref member ['/'])))) = none ↔ _
  unfold escapes
  cases hrel : rel (clean base) (safeJoinCandidate base member) with
  | none =>
    rw [show (clean (joinPath (clean base) (trimPref member ['/']))) =
      safeJoinCandidate base member from rfl, hrel]
    simp
  | some r =>
    rw [show (clean (joinPath (clean base) (trimPref member ['/']))) =
      safeJoinCandidate base member from rfl, hrel]
    by_cases hesc : (decide (r = dd) || hasPref r ('.' :: '.' :: '/' :: [])) = true
    · simp only [hesc]
      simp
    · simp only [Bool.not_eq_true] at hesc
      simp only [hesc]
      simp

/-- C1: for every base and entry name, `safeJoin` strips a leading slash from
the name, joins it with the cleaned base, cleans the result, and errors
exactly when the result's path relative to the base is `..` or starts with
`../` (`filepath.Rel` itself never fails there); an accepted result extends
the cleaned base's elements, so it never lies outside the destination root;
and the entry `../../etc/passwd` is rejected. -/
theorem safeJoin_spec :
    (∀ base member out, safeJoin base member = some out →
        out = safeJoinCandidate base member ∧
        relElemsOf (dotNorm (clean base)) <+: relElemsOf out) ∧
    (∀ base member, safeJoin base member = none ↔
        ∃ r, rel (clean base) (safeJoinCandidate base member) = some r ∧
          (r = dd ∨ hasPref r ('.' :: '.' :: '/' :: []) = true)) ∧
    safeJoin ("dest".toList) ("../../etc/passwd".toList) = none := by
  refine ⟨?_, ?_, ?_⟩
  · intro base member out h
    have h' : (match rel (clean base) (safeJoinCandidate base member) with
      | none => none
      | some r =>
        if r = dd || hasPref r ('.' :: '.' :: '/' :: []) then none
        else some (safeJoinCandidate base member)) = some out := h
    cases hrel : rel (clean base) (safeJoinCandidate base member) with
    | none =>
      rw [hrel] at h'
      exact Option.noConfusion h'
    | some r =>
      rw [hrel] at h'
      have h'' : (if (decide (r = dd) || hasPref r ('.' :: '.' :: '/' :: [])) = true
          then none else some (safeJoinCandidate base member)) = some out := h'
      by_cases hesc : (decide (r = dd) || hasPref r ('.' :: '.' :: '/' :: [])) = true
      · rw [if_pos hesc] at h''
        exact Option.noConfusion h''
      · rw [if_neg hesc] at h''
        have hout : out = safeJoinCandidate base member :=
          (Option.some_inj.mp h'').symm
        refine ⟨hout, ?_⟩
        rw [hout]
        simp only [Bool.or_eq_true, decide_eq_true_eq, not_or] at hesc
        have hcore : relCore (clean base) (safeJoinCandidate base member) = some r := by
          have hclean2 : clean (safeJoinCandidate base member) =
              safeJoinCandidate base member := by
            unfold safeJoinCandidate
            exact clean_idem _
          unfold rel at hrel
          rwa [clean_idem base, hclean2] at hrel
        exact relCore_some_contained hcore hesc.1
          (by rw [Bool.eq_false_iff]; exact hesc.2)
  · intro base member
    rw [safeJoin_eq_escapes]
    rcases Option.isSome_iff_exists.mp (rel_safeJoin_isSome base member) with ⟨r, hrel⟩
    unfold escapes
    rw [hrel]
    constructor
    · intro hesc
      refine ⟨r, rfl, ?_⟩
      rcases Bool.or_eq_true _ _ |>.mp hesc with hc | hc
      · exact Or.inl (of_decide_eq_true hc)
      · exact Or.inr hc
    · rintro ⟨r', hr', hesc⟩
      have hrr : r = r' := Option.some_inj.mp hr'
      subst hrr
      rcases hesc with hc | hc
      · rw [Bool.or_eq_true]
        exact Or.inl (decide_eq_true hc)
      · rw [Bool.or_eq_true]
        exact Or.inr hc
  · rfl

/-- Witness: `safeJoin` accepts `dest` + `a/b` and the accepted path
`dest/a/b` stays inside `dest`. -/
theorem safeJoin_spec_witness :
    ("dest/a/b".toList = safeJoinCandidate ("dest".toList) ("a/b".toList) ∧
      relElemsOf (dotNorm (clean ("dest".toList))) <+:
        relElemsOf ("dest/a/b".toList)) ∧
    (safeJoin ("dest".toList) ("dest".toList ++ "x".toList) = none ↔
      ∃ r, rel (clean ("dest".toList))
          (safeJoinCandidate ("dest".toList) ("dest".toList ++ "x".toList)) = some r ∧
        (r = dd ∨ hasPref r ('.' :: '.' :: '/' :: []) = true)) :=
  ⟨safeJoin_spec.1 ("dest".toList) ("a/b".toList) ("dest/a/b".toList) rfl,
    safeJoin_spec.2.1 ("dest".toList) ("dest".toList ++ "x".toList)⟩

/-- C2: `safeSymlinkTarget` rejects an empty target; resolves an absolute
target as if rooted at the base and a relative target against the symlink's
parent directory; rejects exactly when the resolved, cleaned path leaves the
base under the same relative-path escape test as `safeJoin` (conjunct four
restates `safeJoin`'s error condition through the shared test); and an
accepted symlink's resolved path extends the cleaned base's elements. -/
theorem safeSymlinkTarget_spec :
    (∀ base sp, safeSymlinkTarget base sp [] = false) ∧
    (∀ base sp ln, ln ≠ [] → isAbs ln = true →
        (safeSymlinkTarget base sp ln = true ↔
          escapes (clean base) (clean (joinPath (clean base) ln)) = false)) ∧
    (∀ base sp ln, ln ≠ [] → isAbs ln = false →
        (safeSymlinkTarget base sp ln = true ↔
          escapes (clean base) (clean (joinPath (dirPath sp) ln)) = false)) ∧
    (∀ base member, safeJoin base member = none ↔
        escapes (clean base) (safeJoinCandidate base member) = true) ∧
    (∀ base sp ln, safeSymlinkTarget base sp ln = true →
        relElemsOf (dotNorm (clean base)) <+: relElemsOf (symlinkResolved base sp ln)) ∧
    safeSymlinkTarget ("dest".toList) ("dest/a/link".toList) ("../../x".toList) = false ∧
    safeSymlinkTarget ("dest".toList) ("dest/a/link".toList) ("../b".toList) = true := by
  have hiff : ∀ base sp ln, ln ≠ [] →
      (safeSymlinkTarget base sp ln = true ↔
        escapes (clean base) (symlinkResolved base sp ln) = false) := by
    intro base sp ln hln
    have hbody : safeSymlinkTarget base sp ln =
        (match rel (clean base) (symlinkResolved base sp ln) with
          | none => false
          | some r => !(r = dd || hasPref r ('.' :: '.' :: '/' :: []))) := by
      unfold safeSymlinkTarget symlinkResolved
      rw [if_neg hln]
    rw [hbody]
    unfold escapes
    cases rel (clean base) (symlinkResolved base sp ln) with
    | none => simp
    | some r => simp
  refine ⟨?_, ?_, ?_, safeJoin_eq_escapes, ?_, ?_, ?_⟩
  · intro base sp
    unfold safeSymlinkTarget
    rw [if_pos rfl]
  · intro base sp ln hln habs
    have h := hiff base sp ln hln
    have hres : symlinkResolved base sp ln = clean (joinPath (clean base) ln) := by
      unfold symlinkResolved
      rw [habs]
      rfl
    rwa [hres] at h
  · intro base sp ln hln habs
    have h := hiff base sp ln hln
    have hres : symlinkResolved base sp ln = clean (joinPath (dirPath sp) ln) := by
      unfold symlinkResolved
      rw [habs]
      rfl
    rwa [hres] at h
  · intro base sp ln hok
    have hln : ln ≠ [] := by
      intro h0
      subst h0
      rw [show safeSymlinkTarget base sp [] = false from by
        unfold safeSymlinkTarget; rw [if_pos rfl]] at hok
      cases hok
    have hesc := (hiff base sp ln hln).mp hok
    unfold escapes at hesc
    cases hrel : rel (clean base) (symlinkResolved base sp ln) with
    | none => rw [hrel] at hesc; cases hesc
    | some r =>
      rw [hrel] at hesc
      have hcore : relCore (clean base) (symlinkResolved base sp ln) = some r := by
        have hclean2 : clean (symlinkResolved base sp ln) = symlinkResolved base sp ln := by
          unfold symlinkResolved
          split <;> exact clean_idem _
        unfold rel at hrel
        rwa [clean_idem base, hclean2] at hrel
      simp only [Bool.or_eq_true, decide_eq_true_eq, Bool.or_eq_false_iff,
        decide_eq_false_iff_not] at hesc
      exact relCore_some_contained hcore hesc.1 hesc.2
  · rfl
  · rfl

/-- Witness: an absolute symlink target `/etc/passwd` under base `dest`
resolves inside the base and is accepted. -/
theorem safeSymlinkTarget_spec_witness :
    safeSymlinkTarget ("dest".toList) ("dest/a/link".toList) ("/etc/passwd".toList) = true ↔
      escapes (clean ("dest".toList))
        (clean (joinPath (clean ("dest".toList)) ("/etc/passwd".toList))) = false :=
  safeSymlinkTarget_spec.2.1 ("dest".toList) ("dest/a/link".toList)
    ("/etc/passwd".toList) (by decide) rfl

/-- C4: `stripPathComponents` returns the name unchanged for a non-positive
count, strips `a/b/c.txt` with count 2 to `c.txt`, and drops the entry
(empty name, `false` flag) exactly when the name has at most `count`
segments. -/
theorem stripPathComponents_spec :
    (∀ name c, c ≤ 0 → stripPathComponents name c = (name, true)) ∧
    stripPathComponents ("a/b/c.txt".toList) 2 = ("c.txt".toList, true) ∧
    (∀ (name : GoStr) (c : Int), 0 < c →
        (((stripSegments name).length : Int) ≤ c ↔
          stripPathComponents name c = ([], false))) ∧
    (∀ (name : GoStr) (c : Int), 0 < c → ¬ (((stripSegments name).length : Int) ≤ c) →
        stripPathComponents name c =
          (joinSlash ((stripSegments name).drop c.toNat), true)) := by
  refine ⟨?_, ?_, ?_, ?_⟩
  · intro name c hc
    unfold stripPathComponents
    rw [if_pos hc]
  · rfl
  · intro name c hc
    unfold stripPathComponents
    rw [if_neg (by omega)]
    constructor
    · intro hle
      rw [if_pos hle]
    · intro heq
      by_cases hle : ((stripSegments name).length : Int) ≤ c
      · exact hle
      · rw [if_neg hle] at heq
        exact absurd (congrArg Prod.snd heq) (by simp)
  · intro name c hc hgt
    unfold stripPathComponents
    rw [if_neg (by omega), if_neg hgt]

/-- Witness: a one-segment name is dropped by count 1 and kept by count 0. -/
theorem stripPathComponents_spec_witness :
    stripPathComponents ("file.txt".toList) 0 = ("file.txt".toList, true) ∧
    (((stripSegments ("file.txt".toList)).length : Int) ≤ 1 ↔
      stripPathComponents ("file.txt".toList) 1 = ([], false)) :=
  ⟨stripPathComponents_spec.1 ("file.txt".toList) 0 (by omega),
    stripPathComponents_spec.2.2.1 ("file.txt".toList) 1 (by omega)⟩

/-- C5: on `Auto`, a magic-byte prefix decides the codec regardless of the
filename hint (the five first bytes of the table are pairwise distinct, so
table order cannot matter); without a magic match the extension table
decides; with neither the stream is treated as uncompressed; and the
detected type returned always equals the codec used to wrap the stream. -/
theorem newReader_detection_spec :
    (∀ (rest : List Nat) (hint : GoStr),
        newReaderChoice CType.Auto (0x1f :: 0x8b :: rest) hint = (CType.Gzip, CType.Gzip)) ∧
    (∀ (rest : List Nat) (hint : GoStr),
        newReaderChoice CType.Auto (0x42 :: 0x5a :: 0x68 :: rest) hint =
          (CType.Bzip2, CType.Bzip2)) ∧
    (∀ (rest : List Nat) (hint : GoStr),
        newReaderChoice CType.Auto (0xfd :: 0x37 :: 0x7a :: 0x58 :: 0x5a :: 0x00 :: rest) hint =
          (CType.Xz, CType.Xz)) ∧
    (∀ (rest : List Nat) (hint : GoStr),
        newReaderChoice CType.Auto (0x28 :: 0xb5 :: 0x2f :: 0xfd :: rest) hint =
          (CType.Zstd, CType.Zstd)) ∧
    (∀ (rest : List Nat) (hint : GoStr),
        newReaderChoice CType.Auto (0x04 :: 0x22 :: 0x4d :: 0x18 :: rest) hint =
          (CType.Lz4, CType.Lz4)) ∧
    (∀ (data : List Nat) (hint : GoStr), detectByMagic (data.take 8) = CType.Auto →
        newReaderChoice CType.Auto data hint =
          (if detectByExt hint = CType.Auto then (CType.None, CType.None)
           else (detectByExt hint, detectByExt hint))) ∧
    (∀ (explicit : CType) (data : List Nat) (hint : GoStr),
        (newReaderChoice explicit data hint).1 = (newReaderChoice explicit data hint).2) := by
  have hauto : ∀ (data : List Nat) (hint : GoStr) (t : CType),
      detectByMagic (data.take 8) = t → t ≠ CType.Auto →
      newReaderChoice CType.Auto data hint = (t, t) := by
    intro data hint t ht htne
    unfold newReaderChoice
    rw [if_neg (by simp)]
    show (let t0 := detectByMagic (data.take 8);
          let t1 := if t0 = CType.Auto then detectByExt hint else t0;
          let t2 := if t1 = CType.Auto then CType.None else t1;
          (t2, t2)) = (t, t)
    simp only [ht, if_neg htne]
  refine ⟨?_, ?_, ?_, ?_, ?_, ?_, ?_⟩
  · intro rest hint
    apply hauto _ _ CType.Gzip ?_ (by simp)
    show detectByMagic (0x1f :: 0x8b :: rest.take 6) = CType.Gzip
    unfold detectByMagic
    rw [if_pos ⟨by rw [List.length_cons, List.length_cons]; omega, rfl⟩]
  · intro rest hint
    apply hauto _ _ CType.Bzip2 ?_ (by simp)
    show detectByMagic (0x42 :: 0x5a :: 0x68 :: rest.take 5) = CType.Bzip2
    unfold detectByMagic
    rw [if_neg (by intro h; have := h.2; simp at this)]
    rw [if_pos ⟨by rw [List.length_cons, List.length_cons, List.length_cons]; omega, rfl⟩]
  · intro rest hint
    apply hauto _ _ CType.Xz ?_ (by simp)
    show detectByMagic (0xfd :: 0x37 :: 0x7a :: 0x58 :: 0x5a :: 0x00 :: rest.take 2) = CType.Xz
    unfold detectByMagic
    rw [if_neg (by intro h; have := h.2; simp at this)]
    rw [if_neg (by intro h; have := h.2; simp at this)]
    rw [if_pos ⟨by
      rw [List.length_cons, List.length_cons, List.length_cons,
        List.length_cons, List.length_cons, List.length_cons]
      omega, rfl⟩]
  · intro rest hint
    apply hauto _ _ CType.Zstd ?_ (by simp)
    show detectByMagic (0x28 :: 0xb5 :: 0x2f :: 0xfd :: rest.take 4) = CType.Zstd
    unfold detectByMagic
    rw [if_neg (by intro h; have := h.2; simp at this)]
    rw [if_neg (by intro h; have := h.2; simp at this)]
    rw [if_neg (by intro h; have := h.2; simp at this)]
    rw [if_pos ⟨by
      rw [List.length_cons, List.length_cons, List.length_cons, List.length_cons]
      omega, rfl⟩]
  · intro rest hint
    apply hauto _ _ CType.Lz4 ?_ (by simp)
    show detectByMagic (0x04 :: 0x22 :: 0x4d :: 0x18 :: rest.take 4) = CType.Lz4
    unfold detectByMagic
    rw [if_neg (by intro h; have := h.2; simp at this)]
    rw [if_neg (by intro h; have := h.2; simp at this)]
    rw [if_neg (by intro h; have := h.2; simp at this)]
    rw [if_neg (by intro h; have := h.2; simp at this)]
    rw [if_pos ⟨by
      rw [List.length_cons, List.length_cons, List.length_cons, List.length_cons]
      omega, rfl⟩]
  · intro data hint hmagic
    unfold newReaderChoice
    rw [if_neg (by simp)]
    show (let t0 := detectByMagic (data.take 8);
          let t1 := if t0 = CType.Auto then detectByExt hint else t0;
          let t2 := if t1 = CType.Auto then CType.None else t1;
          (t2, t2)) = _
    simp only [hmagic, if_true, ite_self, if_pos rfl]
    by_cases hext : detectByExt hint = CType.Auto
    · rw [if_pos hext, if_pos hext]
    · rw [if_neg hext, if_neg hext]
  · intro explicit data hint
    unfold newReaderChoice
    split
    · rfl
    · rfl

/-- Witness: auto-detection with no magic match and a `.tgz` hint picks gzip
for both the wrapped stream and the reported type. -/
theorem newReader_detection_spec_witness :
    newReaderChoice CType.Auto [0, 1, 2] ("backup.tgz".toList) =
      (if detectByExt ("backup.tgz".toList) = CType.Auto
        then (CType.None, CType.None)
        else (detectByExt ("backup.tgz".toList), detectByExt ("backup.tgz".toList))) :=
  newReader_detection_spec.2.2.2.2.2.1 [0, 1, 2] ("backup.tgz".toList) (by decide)

theorem getEsc_length {s : GoStr} {c : Char} {s' : GoStr}
    (h : getEsc s = some (c, s')) : s'.length < s.length := by
  cases s with
  | nil => cases h
  | cons c0 rest =>
    have h' : (if c0 = '-' ∨ c0 = ']' then none
        else if c0 = '\\' then
          (match rest with
            | [] => none
            | d :: rest' => if rest' = [] then none else some (d, rest'))
        else if rest = [] then none else some (c0, rest)) = some (c, s') := h
    by_cases h1 : c0 = '-' ∨ c0 = ']'
    · rw [if_pos h1] at h'; cases h'
    · rw [if_neg h1] at h'
      by_cases h2 : c0 = '\\'
      · rw [if_pos h2] at h'
        cases rest with
        | nil => cases h'
        | cons d rest' =>
          have h'' : (if rest' = [] then none else some (d, rest')) = some (c, s') := h'
          by_cases h3 : rest' = []
          · rw [if_pos h3] at h''; cases h''
          · rw [if_neg h3] at h''
            have hs' : s' = rest' := (congrArg Prod.snd (Option.some_inj.mp h'')).symm
            rw [hs']
            simp only [List.length_cons]
            omega
      · rw [if_neg h2] at h'
        by_cases h3 : rest = []
        · rw [if_pos h3] at h'; cases h'
        · rw [if_neg h3] at h'
          have hs' : s' = rest := (congrArg Prod.snd (Option.some_inj.mp h')).symm
          rw [hs']
          simp

theorem matchRangesF_length :
    ∀ (fuel : ℕ) (r : Char) (chunk : GoStr) (n : ℕ) (m : Bool)
      (ch' : GoStr) (m' : Bool),
      matchRangesF fuel r chunk n m = some (ch', m') → ch'.length < chunk.length := by
  intro fuel
  induction fuel with
  | zero => intro r chunk n m ch' m' heq; cases heq
  | succ fuel ih =>
    intro r chunk n m ch' m' heq
    unfold matchRangesF at heq
    by_cases h1 : chunk.head? = some ']' ∧ 0 < n
    · rw [if_pos h1] at heq
      have htl : chunk.tail = ch' := congrArg Prod.fst (Option.some_inj.mp heq)
      rw [← htl]
      cases chunk with
      | nil => simp at h1
      | cons c0 t => simp
    · rw [if_neg h1] at heq
      cases hlo : getEsc chunk with
      | none => rw [hlo] at heq; cases heq
      | some lc =>
        obtain ⟨lo, chunk1⟩ := lc
        rw [hlo] at heq
        have hlt1 := getEsc_length hlo
        have heq' : (if chunk1.head? = some '-' then
            (match getEsc chunk1.tail with
              | none => none
              | some (hi, chunk2) =>
                matchRangesF fuel r chunk2 (n + 1)
                  (m || (decide (lo ≤ r) && decide (r ≤ hi))))
            else matchRangesF fuel r chunk1 (n + 1)
              (m || (decide (lo ≤ r) && decide (r ≤ lo)))) = some (ch', m') := heq
        by_cases h2 : chunk1.head? = some '-'
        · rw [if_pos h2] at heq'
          cases hhi : getEsc chunk1.tail with
          | none => rw [hhi] at heq'; cases heq'
          | some hc2 =>
            obtain ⟨hi, chunk2⟩ := hc2
            rw [hhi] at heq'
            have hlt2 := getEsc_length hhi
            have htl : chunk1.tail.length = chunk1.length - 1 := List.length_tail chunk1
            have := ih r chunk2 (n + 1) _ ch' m' heq'
            omega
        · rw [if_neg h2] at heq'
          have := ih r chunk1 (n + 1) _ ch' m' heq'
          omega

theorem matchRanges_length {r : Char} {chunk : GoStr} {n : ℕ} {m : Bool}
    {ch' : GoStr} {m' : Bool} (h : matchRanges r chunk n m = some (ch', m')) :
    ch'.length < chunk.length :=
  matchRangesF_length _ r chunk n m ch' m' h

theorem goMatchF_succ_some (fuel : ℕ) (pattern name t : GoStr) (ok : Bool)
    (hp : ¬ pattern = [])
    (hsc : ¬ ((scanChunk pattern).1 = true ∧ (scanChunk pattern).2.1 = []))
    (hmc : matchChunk (scanChunk pattern).2.1 name false = some (t, ok)) :
    goMatchF (fuel + 1) pattern name =
      if ok = true ∧ (t = [] ∨ (scanChunk pattern).2.2 ≠ []) then
        goMatchF fuel (scanChunk pattern).2.2 t
      else if (scanChunk pattern).1 = true then
        match starSearch (scanChunk pattern).2.1 (scanChunk pattern).2.2 name with
        | .found t' => goMatchF fuel (scanChunk pattern).2.2 t'
        | .errRes => (false, true)
        | .noHit => (false, !syntaxOk (scanChunk pattern).2.2)
      else (false, !syntaxOk (scanChunk pattern).2.2) := by
  conv_lhs => unfold goMatchF
  rw [if_neg hp, if_neg hsc, hmc]

/-- Go's `Match` only reports `matched` and `ErrBadPattern` exclusively: on
error the match result is `false`. -/
theorem goMatchF_not_both : ∀ (fuel : ℕ) (pattern name : GoStr),
    (goMatchF fuel pattern name).1 = false ∨ (goMatchF fuel pattern name).2 = false := by
  intro fuel
  induction fuel with
  | zero => intro pattern name; left; rfl
  | succ fuel ih =>
    intro pattern name
    by_cases hp : pattern = []
    · right
      unfold goMatchF
      rw [if_pos hp]
    · by_cases hsc : (scanChunk pattern).1 = true ∧ (scanChunk pattern).2.1 = []
      · right
        unfold goMatchF
        rw [if_neg hp, if_pos hsc]
      · cases hmc : matchChunk (scanChunk pattern).2.1 name false with
        | none =>
          left
          unfold goMatchF
          rw [if_neg hp, if_neg hsc, hmc]
        | some tp =>
          obtain ⟨t, ok⟩ := tp
          rw [goMatchF_succ_some fuel pattern name t ok hp hsc hmc]
          by_cases hok : ok = true ∧ (t = [] ∨ (scanChunk pattern).2.2 ≠ [])
          · rw [if_pos hok]
            exact ih _ _
          · rw [if_neg hok]
            by_cases hstar : (scanChunk pattern).1 = true
            · rw [if_pos hstar]
              cases starSearch (scanChunk pattern).2.1 (scanChunk pattern).2.2 name with
              | found t' => exact ih _ _
              | errRes => left; rfl
              | noHit => left; rfl
            · rw [if_neg hstar]
              left; rfl

/-- A lone `[` is a syntactically invalid pattern: `Match` reports a
bad-pattern error and no match, whatever the name. -/
theorem goMatch_bad_class (name : GoStr) :
    goMatch ("[".toList) name = (false, true) := by
  show goMatchF 2 ['['] name = (false, true)
  have hmc : matchChunk (scanChunk ['[']).2.1 name false = none := rfl
  unfold goMatchF
  rw [if_neg (by simp), if_neg (by intro h; exact absurd h.2 (by simp [scanChunk, scanBody])), hmc]

/-- C10: `matchExclude` returns true exactly when some pattern matches the
whole name without a pattern-syntax error; `path.Match` never reports both a
match and an error, and its error is discarded by `matchExclude`, so a
malformed pattern (for example `[`) excludes nothing, even a name it would
otherwise match literally. -/
theorem matchExclude_spec :
    (∀ patterns name, matchExclude patterns name = true ↔
        ∃ p ∈ patterns, goMatch p name = (true, false)) ∧
    (∀ p name, (goMatch p name).1 = true → (goMatch p name).2 = false) ∧
    (∀ name, goMatch ("[".toList) name = (false, true)) ∧
    matchExclude ["[".toList] ("[".toList) = false := by
  have hnb : ∀ p name, (goMatch p name).1 = true → (goMatch p name).2 = false := by
    intro p name h1
    rcases goMatchF_not_both (p.length + 1) p name with h | h
    · rw [show goMatch p name = goMatchF (p.length + 1) p name from rfl] at h1
      rw [h1] at h
      cases h
    · exact h
  refine ⟨?_, hnb, goMatch_bad_class, by decide⟩
  intro patterns name
  unfold matchExclude
  rw [List.any_eq_true]
  constructor
  · rintro ⟨p, hp, hm⟩
    refine ⟨p, hp, ?_⟩
    have h2 := hnb p name hm
    have := @Prod.mk.eta _ _ (goMatch p name)
    rw [← this, hm, h2]
  · rintro ⟨p, hp, hm⟩
    exact ⟨p, hp, by rw [hm]⟩

/-- Witness: `src/*.go` matches `src/main.go` cleanly, so its error flag is
false. -/
theorem matchExclude_spec_witness :
    (goMatch ("src/*.go".toList) ("src/main.go".toList)).2 = false :=
  matchExclude_spec.2.1 ("src/*.go".toList) ("src/main.go".toList) (by decide)

/-- C7 counterexample: with the exclude pattern `parent/.exclude/**` the
archive still contains the directory entry `parent/.exclude` — the pattern
does not match the directory's own name, so its entry is not pruned. -/
theorem exclude_pruning_counterexample :
    ("parent/.exclude".toList) ∈
      addLocalPathEntries ("parent".toList) ["parent/.exclude/**".toList] excludeTree ∧
    matchExclude ["parent/.exclude/**".toList] ("parent/.exclude".toList) = false := by
  refine ⟨?_, by decide⟩
  show ("parent/.exclude".toList) ∈
    (["parent".toList, "parent/.exclude".toList] : List GoStr)
  exact List.mem_cons_of_mem _ (List.mem_cons_self _ _)

/-- C7 amended: the pattern `parent/.exclude/**` prunes every entry strictly
below `parent/.exclude` (each matches the pattern individually), but the
directory's own entry survives, so the archive is exactly
`[parent, parent/.exclude]` and contains nothing strictly under
`parent/.exclude`. -/
theorem exclude_pruning_amended :
    addLocalPathEntries ("parent".toList) ["parent/.exclude/**".toList] excludeTree =
      ["parent".toList, "parent/.exclude".toList] ∧
    (∀ e ∈ addLocalPathEntries ("parent".toList) ["parent/.exclude/**".toList] excludeTree,
        hasPref e ("parent/.exclude/".toList) = false) ∧
    matchExclude ["parent/.exclude/**".toList] ("parent/.exclude/secret.txt".toList) = true := by
  refine ⟨by decide, ?_, by decide⟩
  intro e he
  have he' : e ∈ (["parent".toList, "parent/.exclude".toList] : List GoStr) := he
  rcases List.mem_cons.mp he' with h | h
  · rw [h]; decide
  · rw [List.mem_singleton.mp h]; decide

/-- C7 witness: the surviving directory entry itself is not under
`parent/.exclude/`. -/
theorem exclude_pruning_amended_witness :
    hasPref ("parent".toList) ("parent/.exclude/".toList) = false :=
  exclude_pruning_amended.2.1 ("parent".toList) (by decide)

/-- C8: the run classification is fatal (exit code 2, carrying the error)
exactly when an unrecovered error occurred; with no error and at least one
warning the classification is the warning code, distinct from both fatal and
success; and a regular entry whose header metadata exceeds the 1500-byte
heuristic during `extractToS3` records exactly one warning while the object
is still uploaded. -/
theorem classify_warning_spec :
    (∀ e w, (classifyResult e w).exitCode = ExitFatal ↔ e ≠ none) ∧
    (∀ e w, (classifyResult e w).err = e) ∧
    (∀ w, 0 < w →
        classifyResult none w = { exitCode := ExitWarning, err := none }) ∧
    (ExitWarning ≠ ExitFatal ∧ ExitWarning ≠ ExitSuccess ∧ ExitFatal ≠ ExitSuccess) ∧
    (∀ target hdr, (headerToS3Metadata hdr).2 = false →
        trimPref hdr.name ("./".toList) ≠ [] → hdr.typeflag = '0' →
        (extractToS3 target hdr).1 = 1 ∧ (extractToS3 target hdr).2 ≠ []) := by
  refine ⟨?_, ?_, ?_, ⟨by decide, by decide, by decide⟩, ?_⟩
  · intro e w
    cases e with
    | none =>
      have hred : classifyResult none w =
          (if 0 < w then { exitCode := ExitWarning, err := none }
           else { exitCode := ExitSuccess, err := none } : RunResult) := rfl
      rw [hred]
      constructor
      · intro h
        by_cases hw : 0 < w
        · rw [if_pos hw] at h
          exact absurd h (by decide)
        · rw [if_neg hw] at h
          exact absurd h (by decide)
      · intro h
        exact absurd rfl h
    | some e0 =>
      constructor
      · intro _
        exact Option.noConfusion
      · intro _
        rfl
  · intro e w
    cases e with
    | none =>
      have hred : classifyResult none w =
          (if 0 < w then { exitCode := ExitWarning, err := none }
           else { exitCode := ExitSuccess, err := none } : RunResult) := rfl
      rw [hred]
      by_cases hw : 0 < w
      · rw [if_pos hw]
      · rw [if_neg hw]
    | some e0 => rfl
  · intro w hw
    unfold classifyResult
    rw [if_pos hw]
  · intro target hdr hov hname htype
    unfold extractToS3
    rw [if_neg hname, hov, htype]
    rw [if_pos rfl]
    exact ⟨rfl, by simp⟩

set_option maxRecDepth 10000 in
/-- Witness: a header with a 1501-byte user name overflows the metadata
heuristic; the entry still produces one warning and one upload. -/
theorem classify_warning_spec_witness :
    (extractToS3
        { bucket := ("b".toList), key := [], metadata := [] }
        { name := ("f".toList), typeflag := '0', mode := 420, uid := 0, gid := 0,
          mtimeUnix := 0, linkname := [], uname := List.replicate 1501 'u',
          gname := [], size := 1, paxRecords := [] }).1 = 1 ∧
    (extractToS3
        { bucket := ("b".toList), key := [], metadata := [] }
        { name := ("f".toList), typeflag := '0', mode := 420, uid := 0, gid := 0,
          mtimeUnix := 0, linkname := [], uname := List.replicate 1501 'u',
          gname := [], size := 1, paxRecords := [] }).2 ≠ [] ∧
    0 < (1 : Int) ∧
    classifyResult none 1 = { exitCode := ExitWarning, err := none } := by
  refine ⟨?_, ?_, by decide, classify_warning_spec.2.2.1 1 (by decide)⟩
  · exact (classify_warning_spec.2.2.2.2 _ _ (by decide) (by decide) rfl).1
  · exact (classify_warning_spec.2.2.2.2 _ _ (by decide) (by decide) rfl).2

theorem hasPref_mem {s p : GoStr} (h : hasPref s p = true) {c : Char} (hc : c ∈ p) :
    c ∈ s := by
  have hpre : p <+: s := List.isPrefixOf_iff_prefix.mp h
  exact hpre.sublist.subset hc

theorem takeUntil_snd_no_sep (sep : Char) (s : GoStr) (h : sep ∉ s) :
    (takeUntil [sep] s).2 = [] := by
  unfold takeUntil
  rw [List.dropWhile_eq_nil_iff]
  intro x hx
  have hxs : x ≠ sep := fun e => h (e ▸ hx)
  simp [hxs]

theorem splitN_two_no_sep (sep : Char) (s : GoStr) (h : sep ∉ s) :
    splitN sep 2 s = [s] := by
  have hd := takeUntil_snd_no_sep sep s h
  show (match (takeUntil [sep] s).2 with
    | [] => [s]
    | _ :: after => (takeUntil [sep] s).1 :: splitN sep 1 after) = [s]
  rw [hd]

theorem parseS3ARN_no_slash (res : GoStr) (h : ('/' : Char) ∉ res) :
    parseS3ARN (("arn:aws:s3:::").toList ++ res) =
      .error (("unsupported s3 arn").toList) := by
  have harn : arnParse (("arn:aws:s3:::").toList ++ res) =
      some { partition := ("aws").toList, service := ("s3").toList,
             region := [], accountID := [], resource := res } := rfl
  have hap : ¬ (hasPref res (("accesspoint/").toList) = true) := by
    intro hp
    exact h (hasPref_mem hp (by decide))
  simp only [parseS3ARN, harn]
  rw [if_neg (by decide : ¬ ((("s3").toList : GoStr) ≠ ("s3").toList)), if_neg hap]
  by_cases h3 : hasPref res ((":::").toList) = true
  · have h' : ('/' : Char) ∉ res.drop 3 := fun m => h ((List.drop_sublist 3 res).subset m)
    have hbp : ¬ (hasPref (res.drop 3) (("bucket/").toList) = true) := by
      intro hp
      exact h' (hasPref_mem hp (by decide))
    rw [if_pos h3, if_neg hbp, splitN_two_no_sep '/' (res.drop 3) h']
    rw [if_pos (by simp)]
  · have hbp : ¬ (hasPref res (("bucket/").toList) = true) := by
      intro hp
      exact h (hasPref_mem hp (by decide))
    rw [if_neg h3, if_neg hbp, splitN_two_no_sep '/' res h]
    rw [if_pos (by simp)]

/-- **C9** (counterexample).  The claim says resolving an `s3://` URI with a
missing key component returns an error, but `parseS3URI` only rejects a
missing bucket: `s3://bucket` resolves to an S3 reference with an empty key. -/
theorem resolve_missing_key_counterexample :
    ParseArchive (("s3://bucket").toList) =
      .ok { kind := .s3Kind, raw := ("s3://bucket").toList, path := [],
            bucket := ("bucket").toList, key := [], metadata := [] } := rfl

/-- **C9** (amended).  Resolving a raw reference errors on s3 ARNs whose
resource has no key component (any resource without `/`), on `s3://` URIs with
a missing bucket, on malformed percent-escapes, on ARNs for a non-s3 service,
and on ARNs with too few sections; a well-formed S3 object ARN resolves to its
bucket and key.  (An `s3://` URI with an empty key does NOT error; see the
counterexample.) -/
theorem resolve_errors_amended :
    (∀ res : GoStr, ('/' : Char) ∉ res →
      parseS3ARN (("arn:aws:s3:::").toList ++ res) =
        .error (("unsupported s3 arn").toList)) ∧
    ParseArchive (("s3:///key").toList) =
      .error (("s3 uri must include bucket").toList) ∧
    ParseArchive (("s3://bucket/%zz").toList) = .error (("invalid s3 uri").toList) ∧
    ParseArchive (("arn:aws:ec2:us-east-1:123456789012:instance/i-1234").toList) =
      .error (("unsupported arn service").toList) ∧
    ParseArchive (("arn:aws:s3").toList) = .error (("invalid arn").toList) ∧
    ParseArchive (("arn:aws:s3:::my-bucket/path/to/archive.tar").toList) =
      .ok { kind := .s3Kind,
            raw := ("arn:aws:s3:::my-bucket/path/to/archive.tar").toList,
            path := [], bucket := ("my-bucket").toList,
            key := ("path/to/archive.tar").toList, metadata := [] } :=
  ⟨parseS3ARN_no_slash, rfl, rfl, rfl, rfl, rfl⟩

/-- **C9** witness: a concrete bucket-only ARN is rejected. -/
theorem resolve_errors_amended_witness :
    parseS3ARN (("arn:aws:s3:::mybucket").toList) =
      .error (("unsupported s3 arn").toList) :=
  resolve_errors_amended.1 (("mybucket").toList) (by decide)

theorem b64Val_b64Char : ∀ k, k < 64 → b64Val (b64Char k) = some k := by decide

theorem b64Char_ne_pad : ∀ k, k < 64 → ¬ b64Char k = '=' := by decide

theorem hexVal_hexUpper : ∀ k, k < 16 → hexDigitVal (hexUpper k) = some k := by decide

/-- Reduction of `decodeB64` on a four-character quantum. -/
theorem decodeB64_cons4 (c0 c1 c2 c3 : Char) (rest : GoStr) :
    decodeB64 (c0 :: c1 :: c2 :: c3 :: rest) =
      (if rest = [] ∧ c2 = '=' ∧ c3 = '=' then
        match b64Val c0, b64Val c1 with
        | some v0, some v1 => some [v0 * 4 + v1 / 16]
        | _, _ => none
      else if rest = [] ∧ c3 = '=' then
        match b64Val c0, b64Val c1, b64Val c2 with
        | some v0, some v1, some v2 => some [v0 * 4 + v1 / 16, v1 % 16 * 16 + v2 / 4]
        | _, _, _ => none
      else
        match b64Val c0, b64Val c1, b64Val c2, b64Val c3 with
        | some v0, some v1, some v2, some v3 =>
          (decodeB64 rest).map (fun t =>
            (v0 * 4 + v1 / 16) :: (v1 % 16 * 16 + v2 / 4) :: (v2 % 4 * 64 + v3) :: t)
        | _, _, _, _ => none) := rfl

theorem decodeB64_one (b0 : ℕ) (h : b0 < 256) :
    decodeB64 (encodeB64 [b0]) = some [b0] := by
  have e1 : encodeB64 [b0] =
      [b64Char (b0 % 256 * 65536 / 262144 % 64),
       b64Char (b0 % 256 * 65536 / 4096 % 64), '=', '='] := rfl
  rw [e1, Nat.mod_eq_of_lt h, decodeB64_cons4]
  rw [if_pos ⟨rfl, rfl, rfl⟩]
  rw [b64Val_b64Char _ (Nat.mod_lt _ (by norm_num)),
    b64Val_b64Char _ (Nat.mod_lt _ (by norm_num))]
  show some [b0 * 65536 / 262144 % 64 * 4 + b0 * 65536 / 4096 % 64 / 16] = some [b0]
  have e : b0 * 65536 / 262144 % 64 * 4 + b0 * 65536 / 4096 % 64 / 16 = b0 := by omega
  rw [e]

theorem decodeB64_two (b0 b1 : ℕ) (h0 : b0 < 256) (h1 : b1 < 256) :
    decodeB64 (encodeB64 [b0, b1]) = some [b0, b1] := by
  have e1 : encodeB64 [b0, b1] =
      [b64Char ((b0 % 256 * 65536 + b1 % 256 * 256) / 262144 % 64),
       b64Char ((b0 % 256 * 65536 + b1 % 256 * 256) / 4096 % 64),
       b64Char ((b0 % 256 * 65536 + b1 % 256 * 256) / 64 % 64), '='] := rfl
  rw [e1, Nat.mod_eq_of_lt h0, Nat.mod_eq_of_lt h1, decodeB64_cons4]
  rw [if_neg (fun hc => b64Char_ne_pad _ (Nat.mod_lt _ (by norm_num)) hc.2.1)]
  rw [if_pos ⟨rfl, rfl⟩]
  rw [b64Val_b64Char _ (Nat.mod_lt _ (by norm_num)),
    b64Val_b64Char _ (Nat.mod_lt _ (by norm_num)),
    b64Val_b64Char _ (Nat.mod_lt _ (by norm_num))]
  show some [(b0 * 65536 + b1 * 256) / 262144 % 64 * 4 +
      (b0 * 65536 + b1 * 256) / 4096 % 64 / 16,
    (b0 * 65536 + b1 * 256) / 4096 % 64 % 16 * 16 +
      (b0 * 65536 + b1 * 256) / 64 % 64 / 4] = some [b0, b1]
  have e0 : (b0 * 65536 + b1 * 256) / 262144 % 64 * 4 +
      (b0 * 65536 + b1 * 256) / 4096 % 64 / 16 = b0 := by omega
  have e1' : (b0 * 65536 + b1 * 256) / 4096 % 64 % 16 * 16 +
      (b0 * 65536 + b1 * 256) / 64 % 64 / 4 = b1 := by omega
  rw [e0, e1']

theorem decodeB64_cons (b0 b1 b2 : ℕ) (rest : List ℕ)
    (h0 : b0 < 256) (h1 : b1 < 256) (h2 : b2 < 256) :
    decodeB64 (encodeB64 (b0 :: b1 :: b2 :: rest)) =
      (decodeB64 (encodeB64 rest)).map (fun t => b0 :: b1 :: b2 :: t) := by
  have e1 : encodeB64 (b0 :: b1 :: b2 :: rest) =
      b64Char ((b0 % 256 * 65536 + b1 % 256 * 256 + b2 % 256) / 262144 % 64) ::
      b64Char ((b0 % 256 * 65536 + b1 % 256 * 256 + b2 % 256) / 4096 % 64) ::
      b64Char ((b0 % 256 * 65536 + b1 % 256 * 256 + b2 % 256) / 64 % 64) ::
      b64Char ((b0 % 256 * 65536 + b1 % 256 * 256 + b2 % 256) % 64) :: encodeB64 rest := rfl
  rw [e1, Nat.mod_eq_of_lt h0, Nat.mod_eq_of_lt h1, Nat.mod_eq_of_lt h2, decodeB64_cons4]
  rw [if_neg (fun hc => b64Char_ne_pad _ (Nat.mod_lt _ (by norm_num)) hc.2.1)]
  rw [if_neg (fun hc => b64Char_ne_pad _ (Nat.mod_lt _ (by norm_num)) hc.2)]
  rw [b64Val_b64Char _ (Nat.mod_lt _ (by norm_num)),
    b64Val_b64Char _ (Nat.mod_lt _ (by norm_num)),
    b64Val_b64Char _ (Nat.mod_lt _ (by norm_num)),
    b64Val_b64Char _ (Nat.mod_lt _ (by norm_num))]
  show (decodeB64 (encodeB64 rest)).map (fun t =>
      ((b0 * 65536 + b1 * 256 + b2) / 262144 % 64 * 4 +
        (b0 * 65536 + b1 * 256 + b2) / 4096 % 64 / 16) ::
      ((b0 * 65536 + b1 * 256 + b2) / 4096 % 64 % 16 * 16 +
        (b0 * 65536 + b1 * 256 + b2) / 64 % 64 / 4) ::
      ((b0 * 65536 + b1 * 256 + b2) / 64 % 64 % 4 * 64 +
        (b0 * 65536 + b1 * 256 + b2) % 64) :: t) = _
  have e0 : (b0 * 65536 + b1 * 256 + b2) / 262144 % 64 * 4 +
      (b0 * 65536 + b1 * 256 + b2) / 4096 % 64 / 16 = b0 := by omega
  have e1' : (b0 * 65536 + b1 * 256 + b2) / 4096 % 64 % 16 * 16 +
      (b0 * 65536 + b1 * 256 + b2) / 64 % 64 / 4 = b1 := by omega
  have e2 : (b0 * 65536 + b1 * 256 + b2) / 64 % 64 % 4 * 64 +
      (b0 * 65536 + b1 * 256 + b2) % 64 = b2 := by omega
  rw [e0, e1', e2]

theorem decodeB64_encodeB64 : ∀ bs : List ℕ, (∀ b ∈ bs, b < 256) →
    decodeB64 (encodeB64 bs) = some bs := by
  intro bs
  induction bs using encodeB64.induct with
  | case1 => intro _; rfl
  | case2 b0 => intro h; exact decodeB64_one b0 (h b0 (by simp))
  | case3 b0 b1 =>
    intro h
    exact decodeB64_two b0 b1 (h b0 (by simp)) (h b1 (by simp))
  | case4 b0 b1 b2 rest ih =>
    intro h
    rw [decodeB64_cons b0 b1 b2 rest (h b0 (by simp)) (h b1 (by simp)) (h b2 (by simp))]
    rw [ih (fun b hb => h b (by simp [hb]))]
    rfl

/-- Reduction of `unescapeGo` on a cons. -/
theorem unescapeGo_cons (pts : Bool) (c : Char) (r : GoStr) :
    unescapeGo pts (c :: r) =
      (if c = '%' then
        match r with
        | h1 :: h2 :: rest' =>
          match hexDigitVal h1, hexDigitVal h2 with
          | some a, some b =>
            (unescapeGo pts rest').map (fun t => Char.ofNat (a * 16 + b) :: t)
          | _, _ => none
        | _ => none
      else if c = '+' ∧ pts = true then
        (unescapeGo pts r).map (fun t => ' ' :: t)
      else (unescapeGo pts r).map (fun t => c :: t)) := by
  conv_lhs => unfold unescapeGo
  rfl

theorem unescapeGo_plain (pts : Bool) (c : Char) (r : GoStr)
    (hp : ¬ c = '%') (hpl : ¬ (c = '+' ∧ pts = true)) :
    unescapeGo pts (c :: r) = (unescapeGo pts r).map (fun t => c :: t) := by
  rw [unescapeGo_cons, if_neg hp, if_neg hpl]

theorem unescapeGo_plus (r : GoStr) :
    unescapeGo true ('+' :: r) = (unescapeGo true r).map (fun t => ' ' :: t) := by
  rw [unescapeGo_cons, if_neg (by decide), if_pos ⟨rfl, rfl⟩]

theorem unescapeGo_pct (pts : Bool) (a b : ℕ) (ha : a < 16) (hb : b < 16) (r : GoStr) :
    unescapeGo pts ('%' :: hexUpper a :: hexUpper b :: r) =
      (unescapeGo pts r).map (fun t => Char.ofNat (a * 16 + b) :: t) := by
  have e : unescapeGo pts ('%' :: hexUpper a :: hexUpper b :: r) =
      (match hexDigitVal (hexUpper a), hexDigitVal (hexUpper b) with
       | some a', some b' =>
         (unescapeGo pts r).map (fun t => Char.ofNat (a' * 16 + b') :: t)
       | _, _ => none) := rfl
  rw [e, hexVal_hexUpper _ ha, hexVal_hexUpper _ hb]

/-- `QueryUnescape` inverts `QueryEscape` on ASCII input. -/
theorem unescape_escape : ∀ s : GoStr, (∀ c ∈ s, c.toNat < 128) →
    unescapeGo true (queryEscape s) = some s := by
  intro s
  induction s with
  | nil => intro _; rfl
  | cons c rest ih =>
    intro h
    have hc : c.toNat < 128 := h c (by simp)
    have hrest := ih (fun d hd => h d (by simp [hd]))
    have eq1 : queryEscape (c :: rest) =
        (if isUnreservedQuery c = true then c :: queryEscape rest
         else if c = ' ' then '+' :: queryEscape rest
         else '%' :: hexUpper (c.toNat / 16) :: hexUpper (c.toNat % 16) ::
           queryEscape rest) := rfl
    by_cases hu : isUnreservedQuery c = true
    · rw [eq1, if_pos hu]
      have hpc : ¬ c = '%' := fun e => absurd (e ▸ hu) (by decide)
      have hpl : ¬ (c = '+' ∧ (true : Bool) = true) :=
        fun hx => absurd (hx.1 ▸ hu) (by decide)
      rw [unescapeGo_plain true c _ hpc hpl, hrest]
      rfl
    · rw [eq1, if_neg hu]
      by_cases hsp : c = ' '
      · rw [if_pos hsp, unescapeGo_plus, hrest, hsp]
        rfl
      · rw [if_neg hsp, unescapeGo_pct true _ _ (by omega) (by omega), hrest]
        have ec : c.toNat / 16 * 16 + c.toNat % 16 = c.toNat := by omega
        rw [ec, Char.ofNat_toNat]
        rfl

theorem setMeta_fresh (m : List (GoStr × GoStr)) (k v : GoStr)
    (h : ∀ kv ∈ m, ¬ kv.1 = k) : setMeta m k v = m ++ [(k, v)] := by
  unfold setMeta
  rw [if_neg]
  intro hs
  obtain ⟨x, hx, hp⟩ := List.find?_isSome.mp hs
  exact h x hx (by simpa using hp)

theorem setAttr_fresh (m : List (GoStr × List ℕ)) (k : GoStr) (v : List ℕ)
    (h : ∀ kv ∈ m, ¬ kv.1 = k) : setAttr m k v = m ++ [(k, v)] := by
  unfold setAttr
  rw [if_neg]
  intro hs
  obtain ⟨x, hx, hp⟩ := List.find?_isSome.mp hs
  exact h x hx (by simpa using hp)

theorem hasPref_append (pre s : GoStr) : hasPref (pre ++ s) pre = true :=
  List.isPrefixOf_iff_prefix.mpr ⟨s, rfl⟩

theorem trimPref_append (pre s : GoStr) : trimPref (pre ++ s) pre = s := by
  unfold trimPref
  rw [if_pos (List.isPrefixOf_iff_prefix.mpr ⟨s, rfl⟩)]
  exact List.drop_left pre s

theorem encodeXattr_shape : ∀ (attrs : List (GoStr × List ℕ)) (recs : List (GoStr × GoStr)),
    (∀ kv ∈ attrs, ∀ r ∈ recs, ¬ r.1 = xattrPref ++ queryEscape kv.1) →
    (attrs.map (fun kv => queryEscape kv.1)).Nodup →
    EncodeXattrToPAX recs attrs =
      recs ++ attrs.map (fun kv => (xattrPref ++ queryEscape kv.1, encodeB64 kv.2)) := by
  intro attrs
  induction attrs with
  | nil => intro recs _ _; simp [EncodeXattrToPAX]
  | cons kv rest ih =>
    intro recs hfresh hnd
    have e1 : EncodeXattrToPAX recs (kv :: rest) =
        EncodeXattrToPAX (setMeta recs (xattrPref ++ queryEscape kv.1) (encodeB64 kv.2))
          rest := rfl
    rw [e1, setMeta_fresh _ _ _ (fun r hr => hfresh kv (by simp) r hr)]
    have hnd' : (queryEscape kv.1 :: rest.map (fun kv => queryEscape kv.1)).Nodup := by
      simpa using hnd
    rw [ih _ ?fresh (List.nodup_cons.mp hnd').2]
    · simp
    case fresh =>
      intro kv' hkv' r hr
      rcases List.mem_append.mp hr with hL | hR
      · exact hfresh kv' (by simp [hkv']) r hL
      · have hreq : r = (xattrPref ++ queryEscape kv.1, encodeB64 kv.2) := by simpa using hR
        subst hreq
        intro hkeq
        have heq : queryEscape kv.1 = queryEscape kv'.1 := by simpa using hkeq
        exact (List.nodup_cons.mp hnd').1 (heq ▸ List.mem_map_of_mem _ hkv')

theorem decodeXattrStep_skip (acc : Except GoStr (List (GoStr × List ℕ)))
    (kv : GoStr × GoStr) (h : hasPref kv.1 xattrPref = false) :
    decodeXattrStep acc kv = acc := by
  cases acc with
  | error e => rfl
  | ok out => simp [decodeXattrStep, h]

theorem decode_skip_all : ∀ (recs : List (GoStr × GoStr))
    (acc : Except GoStr (List (GoStr × List ℕ))),
    (∀ kv ∈ recs, hasPref kv.1 xattrPref = false) →
    recs.foldl decodeXattrStep acc = acc := by
  intro recs
  induction recs with
  | nil => intro acc _; rfl
  | cons kv rest ih =>
    intro acc h
    rw [List.foldl_cons, decodeXattrStep_skip acc kv (h kv (by simp))]
    exact ih acc (fun kv' h' => h kv' (by simp [h']))

theorem decodeXattrStep_enc (out : List (GoStr × List ℕ)) (k : GoStr) (v : List ℕ)
    (hk : ∀ c ∈ k, c.toNat < 128) (hv : ∀ b ∈ v, b < 256) :
    decodeXattrStep (.ok out) (xattrPref ++ queryEscape k, encodeB64 v) =
      .ok (setAttr out k v) := by
  simp only [decodeXattrStep]
  rw [if_pos (hasPref_append xattrPref (queryEscape k)), trimPref_append]
  have hu : queryUnescape (queryEscape k) = some k := unescape_escape k hk
  rw [hu, decodeB64_encodeB64 v hv]

theorem decode_enc_all : ∀ (attrs out : List (GoStr × List ℕ)),
    (∀ kv ∈ attrs, ∀ c ∈ kv.1, c.toNat < 128) →
    (∀ kv ∈ attrs, ∀ b ∈ kv.2, b < 256) →
    (∀ kv ∈ attrs, ∀ o ∈ out, ¬ o.1 = kv.1) →
    (attrs.map Prod.fst).Nodup →
    (attrs.map (fun kv => (xattrPref ++ queryEscape kv.1, encodeB64 kv.2))).foldl
      decodeXattrStep (.ok out) = .ok (out ++ attrs) := by
  intro attrs
  induction attrs with
  | nil => intro out _ _ _ _; simp
  | cons kv rest ih =>
    intro out hascii hbytes hfresh hnd
    have hnd' : (kv.1 :: rest.map Prod.fst).Nodup := by simpa using hnd
    simp only [List.map_cons, List.foldl_cons]
    rw [decodeXattrStep_enc out kv.1 kv.2 (hascii kv (by simp)) (hbytes kv (by simp))]
    rw [setAttr_fresh out kv.1 kv.2 (fun o ho => hfresh kv (by simp) o ho)]
    rw [ih (out ++ [(kv.1, kv.2)]) (fun kv' h' => hascii kv' (by simp [h']))
      (fun kv' h' => hbytes kv' (by simp [h'])) ?c (List.nodup_cons.mp hnd').2]
    · simp
    case c =>
      intro kv' hkv' o ho
      rcases List.mem_append.mp ho with hL | hR
      · exact hfresh kv' (by simp [hkv']) o hL
      · have ho2 : o = (kv.1, kv.2) := by simpa using hR
        subst ho2
        intro he
        have hmem : kv'.1 ∈ rest.map Prod.fst := List.mem_map_of_mem _ hkv'
        exact (List.nodup_cons.mp hnd').1 (by
          rw [show kv.1 = kv'.1 from he]
          exact hmem)

/-- **C6** (counterexample).  The PAX record key for an extended attribute is
`GOTGZ.xattr.<name>`, not `xattr.<name>` as the claim says: encoding attribute
`a = [65]` stores the record under `GOTGZ.xattr.a` and a lookup of `xattr.a`
finds nothing. -/
theorem xattr_key_counterexample :
    EncodeXattrToPAX [] [(("a").toList, [65])] =
      [(("GOTGZ.xattr.a").toList, ("QQ==").toList)] ∧
    lookupMeta (EncodeXattrToPAX [] [(("a").toList, [65])]) (("xattr.a").toList) = none ∧
    lookupMeta (EncodeXattrToPAX [] [(("a").toList, [65])])
      (("GOTGZ.xattr.a").toList) = some (("QQ==").toList) :=
  ⟨rfl, rfl, rfl⟩

/-- **C6** (amended).  With the prefix corrected to `GOTGZ.xattr.`: encoding
stores, for each attribute, a record `GOTGZ.xattr.<QueryEscape name> =
base64(value)`; for any pre-existing records without that prefix and any
attribute map with distinct ASCII names and byte values, decoding the encoded
header returns exactly the attribute map; a record whose value is not valid
base64 fails with an error naming the attribute, and a record whose name part
is not a valid query escape fails with the name-decoding error (which does not
name the key). -/
theorem xattr_roundtrip_amended :
    (∀ (recs : List (GoStr × GoStr)) (attrs : List (GoStr × List ℕ)),
      (∀ kv ∈ recs, hasPref kv.1 xattrPref = false) →
      (∀ kv ∈ attrs, ∀ c ∈ kv.1, c.toNat < 128) →
      (∀ kv ∈ attrs, ∀ b ∈ kv.2, b < 256) →
      (attrs.map Prod.fst).Nodup →
      EncodeXattrToPAX recs attrs =
        recs ++ attrs.map (fun kv => (xattrPref ++ queryEscape kv.1, encodeB64 kv.2)) ∧
      DecodeXattrFromPAX (EncodeXattrToPAX recs attrs) = .ok attrs) ∧
    DecodeXattrFromPAX [(xattrPref ++ ("k").toList, ("!!!!").toList)] =
      .error (("decode xattr ").toList ++ ("k").toList) ∧
    DecodeXattrFromPAX [(xattrPref ++ ("%zz").toList, ("QQ==").toList)] =
      .error (("decode xattr name").toList) := by
  refine ⟨?_, rfl, rfl⟩
  intro recs attrs hrecs hascii hbytes hnd
  have hfresh : ∀ kv ∈ attrs, ∀ r ∈ recs, ¬ r.1 = xattrPref ++ queryEscape kv.1 := by
    intro kv _ r hr he
    have hfalse := hrecs r hr
    rw [he, hasPref_append] at hfalse
    exact absurd hfalse (by decide)
  have hesc : (attrs.map (fun kv => queryEscape kv.1)).Nodup := by
    have hmm : attrs.map (fun kv => queryEscape kv.1) =
        (attrs.map Prod.fst).map queryEscape := by
      rw [List.map_map]
      rfl
    rw [hmm]
    refine List.Nodup.map_on ?_ hnd
    intro x hx y hy hexy
    have hxa : ∀ c ∈ x, c.toNat < 128 := by
      obtain ⟨kv, hkv, hkx⟩ := List.mem_map.mp hx
      exact hkx ▸ hascii kv hkv
    have hya : ∀ c ∈ y, c.toNat < 128 := by
      obtain ⟨kv, hkv, hky⟩ := List.mem_map.mp hy
      exact hky ▸ hascii kv hkv
    have hux := unescape_escape x hxa
    rw [hexy, unescape_escape y hya] at hux
    exact (Option.some_inj.mp hux).symm
  have hsh := encodeXattr_shape attrs recs hfresh hesc
  refine ⟨hsh, ?_⟩
  rw [hsh]
  unfold DecodeXattrFromPAX
  rw [List.foldl_append, decode_skip_all recs _ hrecs]
  rw [decode_enc_all attrs [] hascii hbytes
    (fun kv _ o ho => absurd ho (List.not_mem_nil o)) hnd]
  rw [List.nil_append]

/-- **C6** witness: a concrete attribute with a space in its name and bytes
0 and 255 encodes to `GOTGZ.xattr.a+b = AP8=` and decodes back exactly. -/
theorem xattr_roundtrip_amended_witness :
    EncodeXattrToPAX [] [(("a b").toList, [0, 255])] =
      [(("GOTGZ.xattr.a+b").toList, ("AP8=").toList)] ∧
    DecodeXattrFromPAX [(("GOTGZ.xattr.a+b").toList, ("AP8=").toList)] =
      .ok [(("a b").toList, [0, 255])] := by
  have h := xattr_roundtrip_amended.1 [] [(("a b").toList, [0, 255])]
    (by simp) (by decide) (by decide) (by decide)
  exact ⟨h.1, h.2⟩

theorem inv_initState (taskErr : Option GoStr) : Inv taskErr initState := by
  refine ⟨?_, ?_, ?_, ?_, ?_, ?_⟩ <;> simp [initState, Inv]

theorem inv_step {taskErr : Option GoStr} {s s' : SysState}
    (hs : step taskErr s s') (hI : Inv taskErr s) : Inv taskErr s' := by
  obtain ⟨h1, h2, h3, h4, h5, h6⟩ := hI
  cases hs with
  | finish hup =>
    refine ⟨?_, ?_, ?_, ?_, ?_, ?_⟩
    · intro e he
      rcases (h1 e he).2 with h | h <;> rw [hup] at h <;> cases h
    · intro hcd
      have := h2 hcd
      rw [hup] at this; cases this
    · rintro (h | h) <;> cases h
    · intro hret
      rcases (h4 hret).2.1 with h | h <;> rw [hup] at h <;> cases h
    · exact h5
    · exact h6
  | closePR hup =>
    refine ⟨?_, ?_, ?_, ?_, ?_, ?_⟩
    · intro e he
      rcases (h1 e he).2 with h | h <;> rw [hup] at h <;> cases h
    · intro hcd
      have := h2 hcd
      rw [hup] at this; cases this
    · rintro (h | h) <;> cases h
    · intro hret
      rcases (h4 hret).2.1 with h | h <;> rw [hup] at h <;> cases h
    · exact h5
    · exact h6
  | send hup hbuf =>
    refine ⟨?_, ?_, ?_, ?_, ?_, ?_⟩
    · intro e he
      have he' : some taskErr = some e := he
      exact ⟨(Option.some_inj.mp he').symm, Or.inl rfl⟩
    · intro hcd
      have := h2 hcd
      rw [hup] at this; cases this
    · intro _
      exact Or.inl rfl
    · intro hret
      rcases (h4 hret).2.1 with h | h <;> rw [hup] at h <;> cases h
    · exact h5
    · exact h6
  | closeCh hup =>
    refine ⟨?_, ?_, ?_, ?_, ?_, ?_⟩
    · intro e he
      exact ⟨(h1 e he).1, Or.inr rfl⟩
    · intro _
      rfl
    · intro _
      exact h3 (Or.inl hup)
    · intro hret
      exact ⟨(h4 hret).1, Or.inr rfl, (h4 hret).2.2⟩
    · exact h5
    · exact h6
  | startClose hcl =>
    refine ⟨?_, ?_, ?_, ?_, ?_, ?_⟩
    · exact h1
    · exact h2
    · intro hupd
      rcases h3 hupd with h | h
      · exact Or.inl h
      · rw [hcl] at h; cases h
    · intro hret
      cases hret
    · intro _
      rfl
    · intro r hr
      have := h6 r hr
      rw [hcl] at this; cases this
  | recvVal hcl hbuf =>
    refine ⟨?_, ?_, ?_, ?_, ?_, ?_⟩
    · intro e he
      cases he
    · exact h2
    · intro _
      exact Or.inr rfl
    · intro _
      have hb := h1 _ hbuf
      exact ⟨by rw [hb.1], hb.2, h5 (fun hx => by rw [hcl] at hx; cases hx)⟩
    · intro _
      exact h5 (fun hx => by rw [hcl] at hx; cases hx)
    · intro r _
      rfl
  | recvDown hcl hbuf hcd =>
    exfalso
    rcases h3 (Or.inr (h2 hcd)) with h | h
    · rw [hbuf] at h; cases h
    · rw [hcl] at h; cases h

theorem reach_inv {taskErr : Option GoStr} {s : SysState} (h : Reach taskErr s) :
    Inv taskErr s := by
  induction h with
  | refl => exact inv_initState taskErr
  | tail _ hstep ih => exact inv_step hstep ih

/-- **C3**.  Closing the writer returned by `OpenWriter` closes the pipe's
write end and blocks until the background upload task completes, returning
that task's error: in every reachable state, (i) if `Close` has returned,
the pipe write end is closed, the upload goroutine has completed the upload
(it is at or past its send), and the value returned to the caller is exactly
the task's error; and (ii) while the upload has not yet completed (goroutine
before its send), `Close` has not returned and no single step can make it
return — the receive blocks. -/
theorem uploadWriter_close_spec (taskErr : Option GoStr) (s : SysState)
    (h : Reach taskErr s) :
    (s.cl = .returned →
      s.pwShut = true ∧ (s.up = .sent ∨ s.up = .chShut) ∧ s.ret = some taskErr) ∧
    ((s.up = .running ∨ s.up = .uploaded ∨ s.up = .prShut) →
      s.cl ≠ .returned ∧ ∀ s', step taskErr s s' → s'.cl ≠ .returned) := by
  have hI := reach_inv h
  obtain ⟨h1, h2, h3, h4, h5, h6⟩ := hI
  constructor
  · intro hret
    exact ⟨(h4 hret).2.2, (h4 hret).2.1, (h4 hret).1⟩
  · intro hpre
    have hnotret : s.cl ≠ .returned := by
      intro hret
      rcases (h4 hret).2.1 with h' | h' <;>
        rcases hpre with hp | hp | hp <;> rw [hp] at h' <;> cases h'
    refine ⟨hnotret, ?_⟩
    intro s' hstep
    cases hstep with
    | finish hup => exact hnotret
    | closePR hup => exact hnotret
    | send hup hbuf => exact hnotret
    | closeCh hup =>
      rcases hpre with hp | hp | hp <;> rw [hp] at hup <;> cases hup
    | startClose hcl =>
      intro hx; cases hx
    | recvVal hcl hbuf =>
      exfalso
      rcases (h1 _ hbuf).2 with h' | h' <;>
        rcases hpre with hp | hp | hp <;> rw [hp] at h' <;> cases h'
    | recvDown hcl hbuf hcd =>
      exfalso
      have := h2 hcd
      rcases hpre with hp | hp | hp <;> rw [hp] at this <;> cases this

/-- **C3** witness: a complete concrete run with task error `boom` — the
upload finishes, closes the read end, sends, closes the channel; `Close`
shuts the write end and receives — ends returned with exactly `boom`. -/
theorem uploadWriter_close_spec_witness :
    (({ up := .chShut, cl := .returned, buf := none, chDown := true,
        pwShut := true, ret := some (some (("boom").toList)) } : SysState).cl =
          ClPC.returned →
      ({ up := .chShut, cl := .returned, buf := none, chDown := true,
         pwShut := true, ret := some (some (("boom").toList)) } : SysState).pwShut =
           true ∧
      (({ up := .chShut, cl := .returned, buf := none, chDown := true,
          pwShut := true, ret := some (some (("boom").toList)) } : SysState).up =
            UpPC.sent ∨
       ({ up := .chShut, cl := .returned, buf := none, chDown := true,
          pwShut := true, ret := some (some (("boom").toList)) } : SysState).up =
            UpPC.chShut) ∧
      ({ up := .chShut, cl := .returned, buf := none, chDown := true,
         pwShut := true, ret := some (some (("boom").toList)) } : SysState).ret =
           some (some (("boom").toList))) ∧
    ((({ up := .chShut, cl := .returned, buf := none, chDown := true,
         pwShut := true, ret := some (some (("boom").toList)) } : SysState).up =
           UpPC.running ∨
      ({ up := .chShut, cl := .returned, buf := none, chDown := true,
         pwShut := true, ret := some (some (("boom").toList)) } : SysState).up =
           UpPC.uploaded ∨
      ({ up := .chShut, cl := .returned, buf := none, chDown := true,
         pwShut := true, ret := some (some (("boom").toList)) } : SysState).up =
           UpPC.prShut) →
      ({ up := .chShut, cl := .returned, buf := none, chDown := true,
         pwShut := true, ret := some (some (("boom").toList)) } : SysState).cl ≠
           ClPC.returned ∧
      ∀ s', step (some (("boom").toList))
          ({ up := .chShut, cl := .returned, buf := none, chDown := true,
             pwShut := true, ret := some (some (("boom").toList)) } : SysState) s' →
        s'.cl ≠ ClPC.returned) := by
  have h0 : Reach (some (("boom").toList)) initState := Relation.ReflTransGen.refl
  have h1 : Reach (some (("boom").toList))
      { up := .uploaded, cl := .idle, buf := none, chDown := false,
        pwShut := false, ret := none } := h0.tail (step.finish rfl)
  have h2 : Reach (some (("boom").toList))
      { up := .prShut, cl := .idle, buf := none, chDown := false,
        pwShut := false, ret := none } := h1.tail (step.closePR rfl)
  have h3 : Reach (some (("boom").toList))
      { up := .sent, cl := .idle, buf := some (some (("boom").toList)),
        chDown := false, pwShut := false, ret := none } :=
    h2.tail (step.send rfl rfl)
  have h4 : Reach (some (("boom").toList))
      { up := .chShut, cl := .idle, buf := some (some (("boom").toList)),
        chDown := true, pwShut := false, ret := none } :=
    h3.tail (step.closeCh rfl)
  have h5 : Reach (some (("boom").toList))
      { up := .chShut, cl := .pwShutAt, buf := some (some (("boom").toList)),
        chDown := true, pwShut := true, ret := none } :=
    h4.tail (step.startClose rfl)
  have h6 : Reach (some (("boom").toList))
      { up := .chShut, cl := .returned, buf := none, chDown := true,
        pwShut := true, ret := some (some (("boom").toList)) } :=
    h5.tail (step.recvVal rfl rfl)
  exact uploadWriter_close_spec (some (("boom").toList)) _ h6

end Gotgz



